import Mathlib

/-!
# EnsambladorIA32: a shallow embedding of the one-pass IA-32 assembler

The definitions below follow `EnsambladorIA32.cpp` / `EnsambladorIA32.hpp`
function by function.

Modelling conventions.
* A `std::string` is a `List Char` (`Str`); string literals are written
  `"MOV".toList`.
* The assembler object is the record `Ensamblador`; every member function that
  mutates the object takes the state and returns the new one.
* `int` values (`contador_posicion`, the fields of `ReferenciaPendiente`, the
  addresses of `tabla_simbolos`) are mathematical integers: signed overflow is
  undefined behaviour in the source and is not modelled.  `uint8_t` and
  `uint32_t` values are naturals reduced `% 256` and `% 2 ^ 32` where the source
  converts to them.
* The two `unordered_map`s are association lists in insertion order.  The
  iteration order of an `unordered_map` is unspecified: `resolver_en_orden`
  takes the order in which the entries are visited as an argument, and
  `resolver_referencias_pendientes` is the instance that follows the
  association list.
* A `stringstream` is the list of characters not yet consumed.  Every string
  that the source extracts from a stream starts out empty, so a failed
  extraction (the string stays empty) and an extraction of zero characters give
  the same result and the fail bit is not tracked.
* Diagnostics written to `cerr` are not part of the state.
-/

namespace EnsambladorIA32

abbrev Str := List Char

/-- Record `ReferenciaPendiente` of the header: patch position, width, kind
(0 absolute, 1 relative). -/
structure ReferenciaPendiente where
  posicion : Int
  tamano_inmediato : Int
  tipo_salto : Int
deriving DecidableEq

/-- Mutable members of class `EnsambladorIA32` (the register maps are the
constant `reg32_map` below). -/
structure Ensamblador where
  contador_posicion : Int
  tabla_simbolos : List (Str × Int)
  referencias_pendientes : List (Str × List ReferenciaPendiente)
  codigo_hex : List Nat
deriving DecidableEq

/-- State built by the constructor: counter 0, empty tables, empty buffer. -/
def inicial : Ensamblador :=
  { contador_posicion := 0, tabla_simbolos := [], referencias_pendientes := [], codigo_hex := [] }

/-- Table `reg32_map` filled by `inicializar_mapas`. -/
def reg32_map : List (Str × Nat) :=
  [("EAX".toList, 0), ("ECX".toList, 1), ("EDX".toList, 2), ("EBX".toList, 3),
   ("ESP".toList, 4), ("EBP".toList, 5), ("ESI".toList, 6), ("EDI".toList, 7)]

/-- Table `reg8_map` filled by `inicializar_mapas` (never read by the encoder). -/
def reg8_map : List (Str × Nat) :=
  [("AL".toList, 0), ("CL".toList, 1), ("DL".toList, 2), ("BL".toList, 3),
   ("AH".toList, 4), ("CH".toList, 5), ("DH".toList, 6), ("BH".toList, 7)]

/-! ## Maps -/

/-- Lookup in an association list: `m.count(k)` is `(buscar m k).isSome` and
`m.at(k)` / `m[k]` on a present key is the value. -/
def buscar {α : Type} : List (Str × α) → Str → Option α
  | [], _ => none
  | (k, v) :: t, x => if x = k then some v else buscar t x

/-- Assignment `m[k] = v` of an `unordered_map`: overwrite the entry of `k` or
insert a new one. -/
def asignar {α : Type} : List (Str × α) → Str → α → List (Str × α)
  | [], x, v => [(x, v)]
  | (k, w) :: t, x, v => if x = k then (k, v) :: t else (k, w) :: asignar t x v

/-- Statement `referencias_pendientes[etiqueta].push_back(ref)`: append to the
list of the label, creating the entry when the label has none. -/
def agregar_ref : List (Str × List ReferenciaPendiente) → Str → ReferenciaPendiente →
    List (Str × List ReferenciaPendiente)
  | [], x, r => [(x, [r])]
  | (k, l) :: t, x, r => if x = k then (k, l ++ [r]) :: t else (k, l) :: agregar_ref t x r

/-! ## Characters and streams -/

/-- C `isspace` in the default locale: space, and `\t \n \v \f \r` (9 to 13). -/
def isspace (c : Char) : Bool :=
  c.toNat == 32 || (decide (9 ≤ c.toNat) && decide (c.toNat ≤ 13))

/-- C `toupper` in the default locale: `a`..`z` to `A`..`Z`, anything else
unchanged. -/
def toupper (c : Char) : Char :=
  if 97 ≤ c.toNat ∧ c.toNat ≤ 122 then Char.ofNat (c.toNat - 32) else c

/-- Digit value of a character in base 16, as `strtoul` reads it. -/
def valor_digito (c : Char) : Option Nat :=
  if 48 ≤ c.toNat ∧ c.toNat ≤ 57 then some (c.toNat - 48)
  else if 65 ≤ c.toNat ∧ c.toNat ≤ 70 then some (c.toNat - 55)
  else if 97 ≤ c.toNat ∧ c.toNat ≤ 102 then some (c.toNat - 87)
  else none

/-- C `isxdigit`. -/
def isxdigit (c : Char) : Bool := (valor_digito c).isSome

/-- Value of a run of base-16 digits, most significant first. -/
def valor_hex (ds : Str) : Nat :=
  ds.foldl (fun acc c => 16 * acc + (valor_digito c).getD 0) 0

/-- Largest `unsigned long` (a 64-bit `unsigned long` is assumed; the theorems
below only parse values under `2 ^ 32`, where the width plays no role). -/
def ULONG_MAX : Nat := 2 ^ 64 - 1

/-- Optional sign read by `strtoul`: whether it is `-`, and the text after it. -/
def quitar_signo : Str → Bool × Str
  | '-' :: t => (true, t)
  | '+' :: t => (false, t)
  | s => (false, s)

/-- Optional `0x` / `0X` that `strtoul` skips in base 16 when a digit follows. -/
def quitar_0x : Str → Str
  | '0' :: x :: h :: t =>
    if (x = 'x' ∨ x = 'X') ∧ isxdigit h = true then h :: t else '0' :: x :: h :: t
  | s => s

/-- Call `stoul(s, nullptr, 16)`: skip leading white space, an optional sign, an
optional `0x`/`0X` before a digit, then the longest run of base-16 digits;
`none` stands for the exception thrown when there is no digit
(`invalid_argument`) or the value exceeds `ULONG_MAX` (`out_of_range`).  A
leading `-` negates the value in `unsigned long` arithmetic. Trailing
characters are ignored. -/
def stoul16 (s : Str) : Option Nat :=
  let signo := quitar_signo (s.dropWhile isspace)
  let ds := (quitar_0x signo.2).takeWhile isxdigit
  if ds = [] then none
  else if valor_hex ds > ULONG_MAX then none
  else some (if signo.1 then (ULONG_MAX + 1 - valor_hex ds) % (ULONG_MAX + 1) else valor_hex ds)

/-- Extraction `ss >> palabra`: skip leading white space, read up to the next
white space; returns the word and the rest of the stream. -/
def leer_palabra (ss : Str) : Str × Str :=
  let t := ss.dropWhile isspace
  (t.takeWhile (fun ch => !isspace ch), t.dropWhile (fun ch => !isspace ch))

/-- Call `getline(ss, str, delim)`: the characters before the first `delim`,
which is consumed; returns the string and the rest of the stream. -/
def getline (ss : Str) (delim : Char) : Str × Str :=
  (ss.takeWhile (fun ch => ch != delim), (ss.dropWhile (fun ch => ch != delim)).drop 1)

/-- Manipulator `ss >> ws`: discard leading white space. -/
def ws (ss : Str) : Str := ss.dropWhile isspace

/-- Line feed, the default delimiter of `getline`. -/
def salto_linea : Char := Char.ofNat 10

/-! ## Utilities -/

/-- Function `limpiar_linea`: cut at the first `;`, trim white space at both
ends, convert to upper case. -/
def limpiar_linea (linea : Str) : Str :=
  let l1 := linea.takeWhile (fun ch => ch != ';')
  let l2 := l1.dropWhile isspace
  let l3 := (l2.reverse.dropWhile isspace).reverse
  l3.map toupper

/-- Function `es_etiqueta`: non-empty and ending in `:`. -/
def es_etiqueta (s : Str) : Bool :=
  match s.getLast? with
  | some c => c == ':'
  | none => false

/-- Function `generar_modrm`: `(mod << 6) | (reg << 3) | rm` as a `uint8_t`. -/
def generar_modrm (mod reg rm : Nat) : Nat :=
  ((mod <<< 6) ||| (reg <<< 3) ||| rm) % 256

/-- Function `agregar_byte`: push the byte and advance the counter by one. -/
def agregar_byte (s : Ensamblador) (byte : Nat) : Ensamblador :=
  { s with codigo_hex := s.codigo_hex ++ [byte % 256],
           contador_posicion := s.contador_posicion + 1 }

/-- Function `agregar_dword`: the four bytes of a `uint32_t`, least significant
first. -/
def agregar_dword (s : Ensamblador) (dword : Nat) : Ensamblador :=
  let d := dword % 2 ^ 32
  let s1 := agregar_byte s (d &&& 0xFF)
  let s2 := agregar_byte s1 ((d >>> 8) &&& 0xFF)
  let s3 := agregar_byte s2 ((d >>> 16) &&& 0xFF)
  agregar_byte s3 ((d >>> 24) &&& 0xFF)

/-- Function `obtener_reg32`: the code of a 32-bit register name, `none` when
the source returns `false`. -/
def obtener_reg32 (op : Str) : Option Nat := buscar reg32_map op

/-- Conversion `static_cast<uint32_t>` of an `int`. -/
def a_uint32 (x : Int) : Nat := (x % 2 ^ 32).toNat

/-- Function `procesar_mem_simple`: `none` when the source returns `false`
(state untouched), otherwise the ModRM byte written to the out-parameter and
the new state.  The ModRM byte is only returned: the function appends the four
placeholder bytes and nothing else. -/
def procesar_mem_simple (s : Ensamblador) (operando : Str) (reg_code : Nat)
    (es_destino : Bool) (op_extension : Nat) : Option (Nat × Ensamblador) :=
  if operando.head? = some '[' ∧ operando.getLast? = some ']' then
    let etiqueta := (operando.drop 1).take (operando.length - 2)
    let reg_field := if es_destino then op_extension else reg_code
    let modrm_byte := generar_modrm 0 reg_field 5
    let ref : ReferenciaPendiente :=
      { posicion := s.contador_posicion + 1, tamano_inmediato := 4, tipo_salto := 0 }
    let s1 := { s with referencias_pendientes := agregar_ref s.referencias_pendientes etiqueta ref }
    some (modrm_byte, agregar_dword s1 0)
  else none

/-! ## Instructions -/

/-- Function `procesar_etiqueta`. -/
def procesar_etiqueta (s : Ensamblador) (etiqueta : Str) : Ensamblador :=
  { s with tabla_simbolos := asignar s.tabla_simbolos etiqueta s.contador_posicion }

/-- Split of the operand text shared by `procesar_mov` and `procesar_sub`:
`getline(ss, dest_str, ',')`, `ss >> ws`, `getline(ss, src_str)`, then
`limpiar_linea` on both. -/
def separar_operandos (operandos : Str) : Str × Str :=
  let g1 := getline operandos ','
  let g2 := getline (ws g1.2) salto_linea
  (limpiar_linea g1.1, limpiar_linea g2.1)

/-- Test `str.size() > n && str.front() == '[' && str.back() == ']'`. -/
def entre_corchetes (str : Str) : Bool :=
  decide (str.length > 2) && (str.head? == some '[') && (str.getLast? == some ']')

/-- Test `src_str.size() > 1 && src_str.back() == 'H'`. -/
def con_sufijo_h (str : Str) : Bool :=
  decide (str.length > 1) && (str.getLast? == some 'H')

/-- Function `procesar_mov`. -/
def procesar_mov (s : Ensamblador) (operandos : Str) : Ensamblador :=
  let ops := separar_operandos operandos
  let dest_str := ops.1
  let src_str := ops.2
  let dest := obtener_reg32 dest_str
  let src := obtener_reg32 src_str
  match dest, src with
  | some dest_code, some src_code =>
    agregar_byte (agregar_byte s 0x89) (generar_modrm 3 src_code dest_code)
  | _, _ =>
    match dest, con_sufijo_h src_str with
    | some dest_code, true =>
      match stoul16 (src_str.take (src_str.length - 1)) with
      | some immediate => agregar_dword (agregar_byte s (0xB8 + dest_code)) (immediate % 2 ^ 32)
      | none => s
    | _, _ =>
      let paso3 : Option Ensamblador × Ensamblador :=
        match src, entre_corchetes dest_str with
        | some src_code, true =>
          let s1 := agregar_byte s 0x89
          match procesar_mem_simple s1 dest_str src_code true 0 with
          | some r => (some r.2, s1)
          | none => (none, s1)
        | _, _ => (none, s)
      match paso3.1 with
      | some fin => fin
      | none =>
        let s3 := paso3.2
        match dest, entre_corchetes src_str with
        | some dest_code, true =>
          let s4 := agregar_byte s3 0x8B
          match procesar_mem_simple s4 src_str dest_code false 0 with
          | some r => r.2
          | none => s4
        | _, _ => s3

/-- Function `procesar_add`: only a warning. -/
def procesar_add (s : Ensamblador) (_operandos : Str) : Ensamblador := s

/-- Function `procesar_sub`. -/
def procesar_sub (s : Ensamblador) (operandos : Str) : Ensamblador :=
  let ops := separar_operandos operandos
  let dest_str := ops.1
  let src_str := ops.2
  let dest := obtener_reg32 dest_str
  let src := obtener_reg32 src_str
  match dest, src with
  | some dest_code, some src_code =>
    agregar_byte (agregar_byte s 0x29) (generar_modrm 3 src_code dest_code)
  | _, _ =>
    if dest = some 0 ∧ con_sufijo_h src_str = true then
      match stoul16 (src_str.take (src_str.length - 1)) with
      | some immediate => agregar_dword (agregar_byte s 0x2D) (immediate % 2 ^ 32)
      | none => s
    else if dest = none ∧ entre_corchetes dest_str = true ∧ con_sufijo_h src_str = true then
      match stoul16 (src_str.take (src_str.length - 1)) with
      | some immediate =>
        if immediate % 2 ^ 32 ≤ 0xFF then
          let s1 := agregar_byte s 0x83
          match procesar_mem_simple s1 dest_str 0 true 5 with
          | some r => agregar_byte r.2 (immediate % 2 ^ 32)
          | none => s1
        else s
      | none => s
    else s

/-- Function `procesar_jmp`. -/
def procesar_jmp (s : Ensamblador) (operandos : Str) : Ensamblador :=
  let etiqueta := limpiar_linea operandos
  let s1 := agregar_byte s 0xE9
  let posicion_referencia := s1.contador_posicion
  let s2 := { s1 with contador_posicion := s1.contador_posicion + 4 }
  match buscar s2.tabla_simbolos etiqueta with
  | some destino => agregar_dword s2 (a_uint32 (destino - s2.contador_posicion))
  | none =>
    let ref : ReferenciaPendiente :=
      { posicion := posicion_referencia, tamano_inmediato := 4, tipo_salto := 1 }
    agregar_dword
      { s2 with referencias_pendientes := agregar_ref s2.referencias_pendientes etiqueta ref } 0

/-- Second opcode byte chosen by the `if` chain at the head of
`procesar_condicional`, `none` for the final `else`. -/
def opcode_condicional (mnem : Str) : Option Nat :=
  if mnem = "JE".toList ∨ mnem = "JZ".toList then some 0x84
  else if mnem = "JNE".toList ∨ mnem = "JNZ".toList then some 0x85
  else if mnem = "JLE".toList then some 0x8E
  else if mnem = "JL".toList then some 0x8C
  else if mnem = "JA".toList then some 0x87
  else if mnem = "JAE".toList then some 0x83
  else if mnem = "JB".toList then some 0x82
  else if mnem = "JBE".toList then some 0x86
  else if mnem = "JG".toList then some 0x8F
  else if mnem = "JGE".toList then some 0x8D
  else none

/-- Function `procesar_condicional`. -/
def procesar_condicional (s : Ensamblador) (mnem : Str) (operandos : Str) : Ensamblador :=
  let etiqueta := limpiar_linea operandos
  match opcode_condicional mnem with
  | none => s
  | some opcode_byte2 =>
    let s0 := agregar_byte (agregar_byte s 0x0F) opcode_byte2
    let posicion_referencia := s0.contador_posicion
    let s2 := { s0 with contador_posicion := s0.contador_posicion + 4 }
    match buscar s2.tabla_simbolos etiqueta with
    | some destino => agregar_dword s2 (a_uint32 (destino - s2.contador_posicion))
    | none =>
      let ref : ReferenciaPendiente :=
        { posicion := posicion_referencia, tamano_inmediato := 4, tipo_salto := 1 }
      agregar_dword
        { s2 with referencias_pendientes := agregar_ref s2.referencias_pendientes etiqueta ref } 0

/-- Mnemonics of the conditional branch of the dispatch in
`procesar_instruccion`. -/
def mnemonicos_condicionales : List Str :=
  ["JE".toList, "JZ".toList, "JNE".toList, "JNZ".toList, "JLE".toList, "JL".toList,
   "JA".toList, "JAE".toList, "JB".toList, "JBE".toList, "JG".toList, "JGE".toList]

/-- The `if` chain of `procesar_instruccion`, on the mnemonic and the cleaned
operand text. -/
def despachar (s : Ensamblador) (mnem resto : Str) : Ensamblador :=
  if mnem = "MOV".toList then procesar_mov s resto
  else if mnem = "ADD".toList then procesar_add s resto
  else if mnem = "SUB".toList then procesar_sub s resto
  else if mnem = "JMP".toList then procesar_jmp s resto
  else if mnem ∈ mnemonicos_condicionales then procesar_condicional s mnem resto
  else if mnem = "INT".toList then
    let imm_str := (leer_palabra resto).1
    match stoul16 imm_str with
    | some v =>
      let immediate := v % 2 ^ 32
      agregar_byte (agregar_byte s 0xCD) immediate
    | none => s
  else s

/-- Function `procesar_instruccion`: `ss >> mnem`, `getline(ss, resto)`,
`limpiar_linea(resto)`, then the dispatch on the mnemonic. -/
def procesar_instruccion (s : Ensamblador) (linea : Str) : Ensamblador :=
  let p := leer_palabra linea
  despachar s p.1 (limpiar_linea (getline p.2 salto_linea).1)

/-- Function `procesar_linea`. -/
def procesar_linea (s : Ensamblador) (linea : Str) : Ensamblador :=
  let l := limpiar_linea linea
  if l = [] then s
  else if es_etiqueta l = true then procesar_etiqueta s (l.take (l.length - 1))
  else procesar_instruccion s l

/-- Loop of `ensamblar`: every line of the file, in order, through
`procesar_linea`, starting from the state given. -/
def procesar_lineas (s : Ensamblador) (lineas : List Str) : Ensamblador :=
  lineas.foldl procesar_linea s

/-- Phase one on a fresh assembler. -/
def ensamblar (lineas : List Str) : Ensamblador := procesar_lineas inicial lineas

/-! ## Resolution of pending references -/

/-- The four assignments `codigo_hex[pos + i] = ...` guarded by
`pos + 3 < codigo_hex.size()`; the buffer is returned untouched on the error
branch. -/
def parchear (codigo : List Nat) (pos : Int) (valor : Nat) : List Nat :=
  if pos + 3 < (codigo.length : Int) then
    (((codigo.set pos.toNat (valor &&& 0xFF)).set (pos + 1).toNat ((valor >>> 8) &&& 0xFF)).set
      (pos + 2).toNat ((valor >>> 16) &&& 0xFF)).set (pos + 3).toNat ((valor >>> 24) &&& 0xFF)
  else codigo

/-- Body of the inner loop of `resolver_referencias_pendientes` for one
reference of a label whose address is `destino`. -/
def resolver_ref (destino : Int) (codigo : List Nat) (ref : ReferenciaPendiente) : List Nat :=
  let valor_a_parchear : Nat :=
    if ref.tipo_salto = 0 then a_uint32 destino
    else a_uint32 (destino - (ref.posicion + ref.tamano_inmediato))
  parchear codigo ref.posicion valor_a_parchear

/-- Body of the outer loop of `resolver_referencias_pendientes` for one entry
of the pending table. -/
def resolver_etiqueta (tabla : List (Str × Int)) (codigo : List Nat)
    (par : Str × List ReferenciaPendiente) : List Nat :=
  match buscar tabla par.1 with
  | none => codigo
  | some destino => par.2.foldl (resolver_ref destino) codigo

/-- The loop of `resolver_referencias_pendientes` run over the entries of the
pending table in the order `orden`.  The source iterates an `unordered_map`,
whose order is unspecified: `orden` is any arrangement of the entries. -/
def resolver_en_orden (s : Ensamblador) (orden : List (Str × List ReferenciaPendiente)) :
    Ensamblador :=
  { s with codigo_hex := orden.foldl (resolver_etiqueta s.tabla_simbolos) s.codigo_hex }

/-- Function `resolver_referencias_pendientes`, visiting the labels in the
order of the association list. -/
def resolver_referencias_pendientes (s : Ensamblador) : Ensamblador :=
  resolver_en_orden s s.referencias_pendientes

/-! ## Vocabulary of the statements -/

/-- The 22 characters accepted by `isxdigit`. -/
def digitos_hex : Str := "0123456789ABCDEFabcdef".toList

/-- Lines that `limpiar_linea` leaves as they are: no `;`, no lower-case
letter, no white space at either end. -/
def normal (l : Str) : Prop :=
  (∀ c ∈ l, c ≠ ';' ∧ toupper c = c) ∧ (∀ c ∈ l.head?, isspace c = false) ∧
    (∀ c ∈ l.getLast?, isspace c = false)

instance (l : Str) : Decidable (normal l) := by unfold normal; infer_instance

/-- A hexadecimal numeral: a non-empty run of base-16 digits, in either case. -/
def numeral_hex (ds : Str) : Prop := ds ≠ [] ∧ ∀ c ∈ ds, isxdigit c = true

/-- Characters of a token: no white space, no `;`, no lower-case letter. -/
def limpio (c : Char) : Prop := isspace c = false ∧ c ≠ ';' ∧ toupper c = c

instance (c : Char) : Decidable (limpio c) := by unfold limpio; infer_instance

/-- A label name as an operand: non-empty, made of token characters, not ending
in `:`. -/
def nombre_etiqueta (l : Str) : Prop :=
  l ≠ [] ∧ (∀ c ∈ l, limpio c) ∧ l.getLast? ≠ some ':'

instance (l : Str) : Decidable (nombre_etiqueta l) := by unfold nombre_etiqueta; infer_instance

/-- The four bytes of a 32-bit value, least significant first. -/
def bytes_le (v : Nat) : List Nat :=
  [v &&& 0xFF, (v >>> 8) &&& 0xFF, (v >>> 16) &&& 0xFF, (v >>> 24) &&& 0xFF]

/-- The twelve conditional-jump mnemonics with the second opcode byte that the
specification gives for each. -/
def tabla_condicionales : List (Str × Nat) :=
  [("JE".toList, 0x84), ("JZ".toList, 0x84), ("JNE".toList, 0x85), ("JNZ".toList, 0x85),
   ("JB".toList, 0x82), ("JAE".toList, 0x83), ("JBE".toList, 0x86), ("JA".toList, 0x87),
   ("JL".toList, 0x8C), ("JGE".toList, 0x8D), ("JLE".toList, 0x8E), ("JG".toList, 0x8F)]

/-- The pending table as one list of (label, reference) pairs, in the order in
which the resolver visits them. -/
def refs_planas : List (Str × List ReferenciaPendiente) → List (Str × ReferenciaPendiente)
  | [] => []
  | (l, rs) :: t => rs.map (fun r => (l, r)) ++ refs_planas t

/-- Two references whose four-byte patch ranges do not meet. -/
def disjuntas (p q : Str × ReferenciaPendiente) : Prop :=
  p.2.posicion + 4 ≤ q.2.posicion ∨ q.2.posicion + 4 ≤ p.2.posicion

/-- Bookkeeping facts that hold after every line of phase one: the counter and
the addresses of the symbol table are non-negative and below the counter, the
patch ranges of the pending references are pairwise disjoint, start at a
non-negative position, end at most one byte past the counter, and every width
is 4. -/
def Inv (s : Ensamblador) : Prop :=
  0 ≤ s.contador_posicion ∧
  (∀ p ∈ s.tabla_simbolos, 0 ≤ p.2 ∧ p.2 ≤ s.contador_posicion) ∧
  (refs_planas s.referencias_pendientes).Pairwise disjuntas ∧
  (∀ p ∈ refs_planas s.referencias_pendientes,
    0 ≤ p.2.posicion ∧ p.2.posicion + 3 ≤ s.contador_posicion ∧ p.2.tamano_inmediato = 4)

/-- A step that registers nothing: tables unchanged, counter not decreased. -/
def Quieto (s t : Ensamblador) : Prop :=
  t.tabla_simbolos = s.tabla_simbolos ∧ t.referencias_pendientes = s.referencias_pendientes ∧
    s.contador_posicion ≤ t.contador_posicion

/-- Effect of one instruction on the bookkeeping: either quiet, or exactly one
reference of width 4 registered at a position past the old counter whose
range ends at most one byte past the new counter. -/
def Paso (s t : Ensamblador) : Prop :=
  Quieto s t ∨
  (t.tabla_simbolos = s.tabla_simbolos ∧
    ∃ l p k, t.referencias_pendientes =
        agregar_ref s.referencias_pendientes l
          { posicion := p, tamano_inmediato := 4, tipo_salto := k } ∧
      s.contador_posicion + 1 ≤ p ∧ p + 3 ≤ t.contador_posicion)

/-- Little-endian 32-bit value stored at buffer index `i` (absent bytes read as
zero). -/
def leer_dword (codigo : List Nat) (i : Nat) : Nat :=
  (codigo[i]?).getD 0 + 256 * (codigo[i + 1]?).getD 0 + 65536 * (codigo[i + 2]?).getD 0 +
    16777216 * (codigo[i + 3]?).getD 0

/-- A 32-bit value read as a signed integer (two's complement). -/
def a_int32 (v : Nat) : Int := if v < 2 ^ 31 then (v : Int) else (v : Int) - 2 ^ 32

/-- One iteration of the resolver on a flattened entry: nothing for a label
absent from the symbol table, `resolver_ref` otherwise. -/
def resolver_plano (tabla : List (Str × Int)) (codigo : List Nat)
    (p : Str × ReferenciaPendiente) : List Nat :=
  match buscar tabla p.1 with
  | none => codigo
  | some destino => resolver_ref destino codigo p.2

/-- Binding of label `l` to address `a` in the symbol table, everything else
untouched: the assignment `tabla_simbolos[l] = a`. -/
def ligar (s : Ensamblador) (l : Str) (a : Int) : Ensamblador :=
  { s with tabla_simbolos := asignar s.tabla_simbolos l a }

/-- Mnemonic of a line: the first word of the cleaned line, as
`procesar_instruccion` reads it. -/
def mnemonico (linea : Str) : Str := (leer_palabra (limpiar_linea linea)).1

/-- The dispatch set of `procesar_instruccion`: every mnemonic with a branch of
its own. -/
def conjunto_despacho : List Str :=
  ["MOV".toList, "ADD".toList, "SUB".toList, "JMP".toList] ++ mnemonicos_condicionales ++
    ["INT".toList]

/-- An instruction line: its cleaned text is neither empty nor a label
definition. -/
def es_instruccion (linea : Str) : Bool :=
  !(limpiar_linea linea).isEmpty && !es_etiqueta (limpiar_linea linea)

/-- An instruction line with mnemonic `JMP`. -/
def es_jmp (linea : Str) : Bool :=
  es_instruccion linea && decide (mnemonico linea = "JMP".toList)

/-- An instruction line with one of the twelve conditional-jump mnemonics. -/
def es_condicional (linea : Str) : Bool :=
  es_instruccion linea && decide (mnemonico linea ∈ mnemonicos_condicionales)

/-- A jump line, unconditional or conditional. -/
def es_salto (linea : Str) : Bool := es_jmp linea || es_condicional linea

/-- C `islower` in the default locale: `a` to `z`. -/
def es_minuscula (c : Char) : Bool := decide (97 ≤ c.toNat) && decide (c.toNat ≤ 122)

/-- The 26 lower-case letters. -/
def minusculas : Str := "abcdefghijklmnopqrstuvwxyz".toList

/-- A step that advances the position counter and the buffer length by the same
amount. -/
def Parejo (s t : Ensamblador) : Prop :=
  t.contador_posicion - s.contador_posicion =
    (t.codigo_hex.length : Int) - (s.codigo_hex.length : Int)

/-! ## Characters, streams and line cleaning -/

theorem isxdigit_mem (c : Char) (h : isxdigit c = true) : c ∈ digitos_hex := by
  have hc : c = Char.ofNat c.toNat := (Char.ofNat_toNat c).symm
  unfold isxdigit valor_digito at h
  generalize hn : c.toNat = n at h hc
  have hr : (48 ≤ n ∧ n ≤ 57) ∨ (65 ≤ n ∧ n ≤ 70) ∨ (97 ≤ n ∧ n ≤ 102) := by
    by_contra hcon
    simp only [not_or] at hcon
    obtain ⟨h1, h2, h3⟩ := hcon
    simp [h1, h2, h3] at h
  subst hc
  rcases hr with ⟨h1, h2⟩ | ⟨h1, h2⟩ | ⟨h1, h2⟩ <;> interval_cases n <;> decide

theorem digitos_hex_props : ∀ c ∈ digitos_hex,
    isspace c = false ∧ c ≠ ';' ∧ c ≠ ',' ∧ c ≠ ':' ∧ c ≠ salto_linea ∧ c ≠ '-' ∧ c ≠ '+' ∧
    c ≠ 'x' ∧ c ≠ 'X' ∧ c ≠ 'H' ∧ c ≠ '[' ∧
    isxdigit (toupper c) = true ∧ valor_digito (toupper c) = valor_digito c ∧
    toupper (toupper c) = toupper c := by
  decide

theorem takeWhile_todo (p : Char → Bool) (l : Str) (h : ∀ c ∈ l, p c = true) :
    l.takeWhile p = l := by
  induction l with
  | nil => rfl
  | cons a t ih =>
    have ha : p a = true := h a (List.mem_cons_self a t)
    rw [List.takeWhile_cons_of_pos ha, ih (fun c hc => h c (List.mem_cons_of_mem a hc))]

theorem dropWhile_todo (p : Char → Bool) (l : Str) (h : ∀ c ∈ l, p c = true) :
    l.dropWhile p = [] := by
  induction l with
  | nil => rfl
  | cons a t ih =>
    have ha : p a = true := h a (List.mem_cons_self a t)
    rw [List.dropWhile_cons_of_pos ha, ih (fun c hc => h c (List.mem_cons_of_mem a hc))]

theorem dropWhile_cabeza (p : Char → Bool) (l : Str) (h : ∀ c, l.head? = some c → p c = false) :
    l.dropWhile p = l := by
  cases l with
  | nil => rfl
  | cons a t =>
    have ha : ¬ (p a = true) := by simp [h a rfl]
    exact List.dropWhile_cons_of_neg ha

theorem recorte_final (l : Str) (h : ∀ c, l.getLast? = some c → isspace c = false) :
    (l.reverse.dropWhile isspace).reverse = l := by
  rcases List.eq_nil_or_concat l with rfl | ⟨t, a, rfl⟩
  · rfl
  · rw [List.concat_eq_append] at h ⊢
    have ha : ¬ (isspace a = true) := by simp [h a (List.getLast?_concat t)]
    rw [List.reverse_append, List.reverse_singleton, List.singleton_append,
      List.dropWhile_cons_of_neg ha, List.reverse_cons, List.reverse_reverse]

/-- A line without `;` whose first and last characters are not white space is
only converted to upper case by `limpiar_linea`. -/
theorem limpiar_linea_mayusculas (l : Str) (h1 : ∀ c ∈ l, c ≠ ';')
    (h2 : ∀ c, l.head? = some c → isspace c = false)
    (h3 : ∀ c, l.getLast? = some c → isspace c = false) :
    limpiar_linea l = l.map toupper := by
  unfold limpiar_linea
  have e1 : l.takeWhile (fun ch => ch != ';') = l :=
    takeWhile_todo _ l (fun c hc => by simpa using h1 c hc)
  simp only [e1, dropWhile_cabeza isspace l h2, recorte_final l h3]

theorem limpiar_linea_normal (l : Str) (h : normal l) : limpiar_linea l = l := by
  rw [limpiar_linea_mayusculas l (fun c hc => (h.1 c hc).1) h.2.1 h.2.2]
  conv_rhs => rw [← List.map_id l]
  exact List.map_congr_left (fun c hc => (h.1 c hc).2)

theorem getline_sin_delim (l : Str) (d : Char) (h : ∀ c ∈ l, c ≠ d) : getline l d = (l, []) := by
  unfold getline
  rw [takeWhile_todo _ l (fun c hc => by simpa using h c hc),
    dropWhile_todo _ l (fun c hc => by simpa using h c hc)]
  rfl

theorem getline_con_delim (a b : Str) (d : Char) (h : ∀ c ∈ a, c ≠ d) :
    getline (a ++ d :: b) d = (a, b) := by
  unfold getline
  have hp : ∀ c ∈ a, (fun ch => ch != d) c = true := fun c hc => by simpa using h c hc
  rw [List.takeWhile_append_of_pos hp, List.dropWhile_append_of_pos hp]
  simp

theorem leer_palabra_espacio (m r : Str) (hm : ∀ c ∈ m, isspace c = false) (hne : m ≠ []) :
    leer_palabra (m ++ ' ' :: r) = (m, ' ' :: r) := by
  unfold leer_palabra
  have h0 : (m ++ ' ' :: r).dropWhile isspace = m ++ ' ' :: r := by
    apply dropWhile_cabeza
    intro c hc
    cases m with
    | nil => exact absurd rfl hne
    | cons a t =>
      simp at hc
      exact hc ▸ hm a (List.mem_cons_self a t)
  have hp : ∀ c ∈ m, (fun ch => !isspace ch) c = true := fun c hc => by simp [hm c hc]
  have hs : isspace ' ' = true := by decide
  simp only [h0, List.takeWhile_append_of_pos hp, List.dropWhile_append_of_pos hp]
  simp [hs]

theorem leer_palabra_sola (m : Str) (hm : ∀ c ∈ m, isspace c = false) :
    leer_palabra m = (m, []) := by
  unfold leer_palabra
  have h0 : m.dropWhile isspace = m :=
    dropWhile_cabeza _ _ (fun c hc => hm c (List.mem_of_mem_head? hc))
  have hp : ∀ c ∈ m, (fun ch => !isspace ch) c = true := fun c hc => by simp [hm c hc]
  simp only [h0, takeWhile_todo _ m hp, dropWhile_todo _ m hp]

theorem limpiar_linea_espacio (r : Str) : limpiar_linea (' ' :: r) = limpiar_linea r := by
  unfold limpiar_linea
  have h1 : List.takeWhile (fun ch : Char => ch != ';') (' ' :: r) =
      ' ' :: List.takeWhile (fun ch : Char => ch != ';') r := by
    rw [List.takeWhile_cons]
    rfl
  have h2 : isspace ' ' = true := by decide
  simp only [h1, List.dropWhile_cons_of_pos h2]

theorem getLast?_espacio (m r : Str) (hr : r ≠ []) :
    (m ++ ' ' :: r).getLast? = r.getLast? := by
  rcases List.eq_nil_or_concat r with rfl | ⟨t, a, rfl⟩
  · exact absurd rfl hr
  · rw [List.concat_eq_append, List.getLast?_concat]
    have e : m ++ ' ' :: (t ++ [a]) = (m ++ ' ' :: t) ++ [a] := by simp
    rw [e, List.getLast?_concat]

/-- A line whose cleaned text is `mnem resto` reaches the dispatch with exactly
these two parts. -/
theorem procesar_linea_instruccion (s : Ensamblador) (linea mnem resto : Str)
    (hl : limpiar_linea linea = mnem ++ ' ' :: resto)
    (hm0 : mnem ≠ []) (hm : ∀ c ∈ mnem, isspace c = false)
    (hr0 : resto ≠ []) (hr : normal resto) (hnl : ∀ c ∈ resto, c ≠ salto_linea)
    (hfin : resto.getLast? ≠ some ':') :
    procesar_linea s linea = despachar s mnem resto := by
  have hlast : (mnem ++ ' ' :: resto).getLast? = resto.getLast? := getLast?_espacio mnem resto hr0
  have hne : mnem ++ ' ' :: resto ≠ [] := by simp
  have hetq : es_etiqueta (mnem ++ ' ' :: resto) = false := by
    unfold es_etiqueta
    rw [hlast]
    cases h : resto.getLast? with
    | none => rfl
    | some c =>
      have : c ≠ ':' := fun hc => hfin (by rw [h, hc])
      simp [this]
  have hnl2 : ∀ c ∈ ' ' :: resto, c ≠ salto_linea := by
    intro c hc
    rcases List.mem_cons.1 hc with h | h
    · subst h; decide
    · exact hnl c h
  unfold procesar_linea
  simp only [hl, hne, hetq, if_false, Bool.false_eq_true]
  unfold procesar_instruccion
  simp only [leer_palabra_espacio mnem resto hm hm0,
    getline_sin_delim _ _ hnl2, limpiar_linea_espacio, limpiar_linea_normal _ hr]

/-- Lines with the same cleaned text are processed alike. -/
theorem procesar_linea_congr (s : Ensamblador) (a b : Str)
    (h : limpiar_linea a = limpiar_linea b) : procesar_linea s a = procesar_linea s b := by
  unfold procesar_linea
  rw [h]

theorem separar_operandos_coma (d f : Str) (hd : ∀ c ∈ d, c ≠ ',') (hdn : normal d)
    (hfn : normal f) (hnl : ∀ c ∈ f, c ≠ salto_linea) :
    separar_operandos (d ++ ',' :: ' ' :: f) = (d, f) := by
  unfold separar_operandos
  have hws : ws (' ' :: f) = f := by
    unfold ws
    have h2 : isspace ' ' = true := by decide
    rw [List.dropWhile_cons_of_pos h2]
    exact dropWhile_cabeza _ _ hfn.2.1
  simp only [getline_con_delim d (' ' :: f) ',' hd, hws, getline_sin_delim f _ hnl,
    limpiar_linea_normal _ hdn, limpiar_linea_normal _ hfn]

/-- Facts about the eight register names used by the encoders. -/
theorem reg32_props : ∀ p ∈ reg32_map,
    obtener_reg32 p.1 = some p.2 ∧ p.2 < 8 ∧ p.1 ≠ [] ∧ normal p.1 ∧
    (∀ c ∈ p.1, c ≠ ',' ∧ c ≠ salto_linea) ∧ p.1.getLast? ≠ some 'H' ∧ p.1.head? ≠ some '[' := by
  decide

theorem buscar_mem {α : Type} (m : List (Str × α)) (k : Str) (v : α)
    (h : buscar m k = some v) : (k, v) ∈ m := by
  induction m with
  | nil => simp [buscar] at h
  | cons p t ih =>
    obtain ⟨k0, v0⟩ := p
    unfold buscar at h
    split at h
    · next heq =>
      injection h with h
      subst h; subst heq
      exact List.mem_cons_self _ _
    · exact List.mem_cons_of_mem _ (ih h)

theorem obtener_reg32_none (l : Str) (h : l.getLast? = some 'H') : obtener_reg32 l = none := by
  cases hc : obtener_reg32 l with
  | none => rfl
  | some c =>
    have hm := buscar_mem _ _ _ hc
    exact absurd h (reg32_props _ hm).2.2.2.2.2.1

theorem obtener_reg32_none_corchete (l : Str) (h : l.head? = some '[') :
    obtener_reg32 l = none := by
  cases hc : obtener_reg32 l with
  | none => rfl
  | some c =>
    have hm := buscar_mem _ _ _ hc
    exact absurd h (reg32_props _ hm).2.2.2.2.2.2

theorem valor_hex_append (a : Str) (c : Char) :
    valor_hex (a ++ [c]) = 16 * valor_hex a + (valor_digito c).getD 0 := by
  unfold valor_hex
  rw [List.foldl_append]
  rfl

/-- On a non-empty run of base-16 digits `stoul` returns its value. -/
theorem stoul16_digitos (ds : Str) (h0 : ds ≠ []) (hx : ∀ c ∈ ds, isxdigit c = true)
    (hv : valor_hex ds ≤ ULONG_MAX) : stoul16 ds = some (valor_hex ds) := by
  cases ds with
  | nil => exact absurd rfl h0
  | cons a t =>
    have ha := digitos_hex_props a (isxdigit_mem a (hx a (List.mem_cons_self a t)))
    have hsp : ¬ (isspace a = true) := by simp [ha.1]
    have htw : (a :: t).takeWhile isxdigit = a :: t := takeWhile_todo _ _ hx
    have hsig : quitar_signo (a :: t) = (false, a :: t) := by
      unfold quitar_signo
      split
      · next heq => injection heq with h1 h2; exact absurd h1 ha.2.2.2.2.2.1
      · next heq => injection heq with h1 h2; exact absurd h1 ha.2.2.2.2.2.2.1
      · rfl
    have hpre : quitar_0x (a :: t) = a :: t := by
      unfold quitar_0x
      split
      · next x h u heq =>
        injection heq with h1 h2
        subst h2
        have hxx := digitos_hex_props x (isxdigit_mem x (hx x (by simp)))
        have : ¬ ((x = 'x' ∨ x = 'X') ∧ isxdigit h = true) := by
          rintro ⟨h3 | h3, _⟩
          · exact hxx.2.2.2.2.2.2.2.1 h3
          · exact hxx.2.2.2.2.2.2.2.2.1 h3
        rw [if_neg this, h1]
      · rfl
    have hgt : ¬ (valor_hex (a :: t) > ULONG_MAX) := not_lt.2 hv
    unfold stoul16
    simp only [List.dropWhile_cons_of_neg hsp, hsig, hpre, htw]
    simp [hgt]

theorem normal_de_limpio (l : Str) (h : ∀ c ∈ l, limpio c) : normal l :=
  ⟨fun c hc => (h c hc).2, fun c hc => (h c (List.mem_of_mem_head? hc)).1,
    fun c hc => (h c (List.mem_of_mem_getLast? hc)).1⟩

theorem limpio_hex (c : Char) (h : isxdigit c = true) : limpio (toupper c) := by
  have key : ∀ a ∈ digitos_hex,
      isspace (toupper a) = false ∧ toupper a ≠ ';' ∧ toupper (toupper a) = toupper a := by
    decide
  exact key c (isxdigit_mem c h)

theorem hex_props (c : Char) (h : isxdigit c = true) :
    isspace c = false ∧ c ≠ ';' ∧ c ≠ ',' ∧ c ≠ ':' ∧ c ≠ salto_linea ∧ c ≠ '[' :=
  have h := digitos_hex_props c (isxdigit_mem c h)
  ⟨h.1, h.2.1, h.2.2.1, h.2.2.2.1, h.2.2.2.2.1, h.2.2.2.2.2.2.2.2.2.2.1⟩

theorem valor_hex_mayusculas (ds : Str) (hx : ∀ c ∈ ds, isxdigit c = true) :
    valor_hex (ds.map toupper) = valor_hex ds := by
  induction ds using List.reverseRecOn with
  | nil => rfl
  | append_singleton t a ih =>
    have ha := digitos_hex_props a (isxdigit_mem a (hx a (by simp)))
    rw [List.map_append, List.map_singleton, valor_hex_append, valor_hex_append,
      ih (fun c hc => hx c (List.mem_append_left _ hc)), ha.2.2.2.2.2.2.2.2.2.2.2.2.1]

theorem numeral_hex_mayusculas (ds : Str) (h : numeral_hex ds) :
    numeral_hex (ds.map toupper) ∧ (∀ c ∈ ds.map toupper, limpio c) := by
  refine ⟨⟨by simpa using h.1, ?_⟩, ?_⟩
  · intro c hc
    obtain ⟨a, ha, rfl⟩ := List.mem_map.1 hc
    exact (digitos_hex_props a (isxdigit_mem a (h.2 a ha))).2.2.2.2.2.2.2.2.2.2.2.1
  · intro c hc
    obtain ⟨a, ha, rfl⟩ := List.mem_map.1 hc
    exact limpio_hex a (h.2 a ha)

/-- Cleaning `m d, dsH` (or `m d, ds`): only the digits change, to upper case. -/
theorem limpiar_linea_reg_inmediato (m d ds fin : Str) (hm0 : m ≠ [])
    (hm : ∀ c ∈ m, limpio c) (hd : ∀ c ∈ d, limpio c) (hds : numeral_hex ds)
    (hfin : ∀ c ∈ fin, limpio c) :
    limpiar_linea (m ++ ' ' :: (d ++ ',' :: ' ' :: (ds ++ fin))) =
      m ++ ' ' :: (d ++ ',' :: ' ' :: (ds.map toupper ++ fin)) := by
  have hup : ∀ l : Str, (∀ c ∈ l, limpio c) → l.map toupper = l := by
    intro l hl
    conv_rhs => rw [← List.map_id l]
    exact List.map_congr_left (fun c hc => (hl c hc).2.2)
  rw [limpiar_linea_mayusculas]
  · simp only [List.map_append, List.map_cons, hup m hm, hup d hd, hup fin hfin]
    rfl
  · intro c hc
    simp only [List.mem_append, List.mem_cons] at hc
    rcases hc with h | rfl | h | rfl | rfl | h | h
    · exact (hm c h).2.1
    · decide
    · exact (hd c h).2.1
    · decide
    · decide
    · exact (hex_props c (hds.2 c h)).2.1
    · exact (hfin c h).2.1
  · intro c hc
    cases m with
    | nil => exact absurd rfl hm0
    | cons a t =>
      simp at hc
      exact hc ▸ (hm a (List.mem_cons_self a t)).1
  · intro c hc
    rcases List.eq_nil_or_concat fin with rfl | ⟨t, a, rfl⟩
    · rcases List.eq_nil_or_concat ds with rfl | ⟨t, a, rfl⟩
      · exact absurd rfl hds.1
      · rw [List.concat_eq_append] at hc hds
        have e : m ++ ' ' :: (d ++ ',' :: ' ' :: (t ++ [a] ++ [])) =
            (m ++ ' ' :: (d ++ ',' :: ' ' :: t)) ++ [a] := by simp
        rw [e, List.getLast?_concat] at hc
        injection hc with hc
        subst hc
        exact (hex_props a (hds.2 a (by simp))).1
    · rw [List.concat_eq_append] at hc hfin
      have e : m ++ ' ' :: (d ++ ',' :: ' ' :: (ds ++ (t ++ [a]))) =
          (m ++ ' ' :: (d ++ ',' :: ' ' :: (ds ++ t))) ++ [a] := by simp
      rw [e, List.getLast?_concat] at hc
      injection hc with hc
      subst hc
      exact (hfin a (by simp)).1

theorem getLast?_append_no_vacia (a b : Str) (hb : b ≠ []) : (a ++ b).getLast? = b.getLast? := by
  rcases List.eq_nil_or_concat b with rfl | ⟨t, x, rfl⟩
  · exact absurd rfl hb
  · rw [List.concat_eq_append, ← List.append_assoc, List.getLast?_concat, List.getLast?_concat]

theorem head?_append_no_vacia (a b : Str) (ha : a ≠ []) : (a ++ b).head? = a.head? := by
  cases a with
  | nil => exact absurd rfl ha
  | cons x t => rfl

/-- Operand text `a, b` made of two cleaned operands is itself clean. -/
theorem normal_operandos (a b : Str) (ha0 : a ≠ []) (ha : normal a) (hb0 : b ≠ [])
    (hb : normal b) : normal (a ++ ',' :: ' ' :: b) := by
  refine ⟨?_, ?_, ?_⟩
  · intro c hc
    simp only [List.mem_append, List.mem_cons] at hc
    rcases hc with h | rfl | rfl | h
    · exact ha.1 c h
    · decide
    · decide
    · exact hb.1 c h
  · intro c hc
    rw [head?_append_no_vacia _ _ ha0] at hc
    exact ha.2.1 c hc
  · intro c hc
    have e : a ++ ',' :: ' ' :: b = (a ++ [',', ' ']) ++ b := by simp
    rw [e, getLast?_append_no_vacia _ _ hb0] at hc
    exact hb.2.2 c hc

/-- The operand text `d, duH` of a register and an upper-case numeral with the
suffix splits into the register and the literal, which is no register name. -/
theorem operandos_reg_inmediato (d : Str) (c : Nat) (du : Str) (hd : (d, c) ∈ reg32_map)
    (hdu : numeral_hex du) (hlim : ∀ ch ∈ du, limpio ch) :
    separar_operandos (d ++ ',' :: ' ' :: (du ++ ['H'])) = (d, du ++ ['H']) ∧
    normal (d ++ ',' :: ' ' :: (du ++ ['H'])) ∧
    (∀ ch ∈ d ++ ',' :: ' ' :: (du ++ ['H']), ch ≠ salto_linea) ∧
    (d ++ ',' :: ' ' :: (du ++ ['H'])).getLast? = some 'H' ∧
    obtener_reg32 d = some c ∧ obtener_reg32 (du ++ ['H']) = none ∧
    con_sufijo_h (du ++ ['H']) = true ∧
    (du ++ ['H']).take ((du ++ ['H']).length - 1) = du := by
  have hp := reg32_props (d, c) hd
  have hH : limpio 'H' := by decide
  have hnH : normal (du ++ ['H']) := by
    apply normal_de_limpio
    intro ch hch
    rcases List.mem_append.1 hch with h | h
    · exact hlim ch h
    · rw [List.mem_singleton.1 h]; exact hH
  have hnlH : ∀ ch ∈ du ++ ['H'], ch ≠ salto_linea := by
    intro ch hch
    rcases List.mem_append.1 hch with h | h
    · exact (hex_props ch (hdu.2 ch h)).2.2.2.2.1
    · rw [List.mem_singleton.1 h]; decide
  have hlast : (du ++ ['H']).getLast? = some 'H' := List.getLast?_concat du
  refine ⟨?_, ?_, ?_, ?_, hp.1, obtener_reg32_none _ hlast, ?_, ?_⟩
  · exact separar_operandos_coma d _ (fun ch hch => (hp.2.2.2.2.1 ch hch).1) hp.2.2.2.1 hnH hnlH
  · exact normal_operandos d _ hp.2.2.1 hp.2.2.2.1 (by simp) hnH
  · intro ch hch
    simp only [List.mem_append, List.mem_cons] at hch
    rcases hch with h | rfl | rfl | h
    · exact (hp.2.2.2.2.1 ch h).2
    · decide
    · decide
    · exact hnlH ch (by simpa using h)
  · have e : d ++ ',' :: ' ' :: (du ++ ['H']) = (d ++ ',' :: ' ' :: du) ++ ['H'] := by simp
    rw [e, List.getLast?_concat]
  · unfold con_sufijo_h
    have hlen : 0 < du.length := List.length_pos.2 hdu.1
    simp [hlast]
    omega
  · simp

theorem byte_and (x : Nat) : (x &&& 0xFF) % 256 = x &&& 0xFF :=
  Nat.mod_eq_of_lt (Nat.lt_succ_of_le Nat.and_le_right)

theorem agregar_byte_codigo (s : Ensamblador) (b : Nat) :
    (agregar_byte s b).codigo_hex = s.codigo_hex ++ [b % 256] := rfl

theorem agregar_dword_codigo (s : Ensamblador) (v : Nat) (hv : v < 2 ^ 32) :
    (agregar_dword s v).codigo_hex =
      s.codigo_hex ++ [v &&& 0xFF, (v >>> 8) &&& 0xFF, (v >>> 16) &&& 0xFF, (v >>> 24) &&& 0xFF] := by
  unfold agregar_dword
  simp only [agregar_byte_codigo, Nat.mod_eq_of_lt hv, byte_and, List.append_assoc,
    List.singleton_append, List.cons_append, List.nil_append]

theorem agregar_dword_resto (s : Ensamblador) (v : Nat) :
    (agregar_dword s v).contador_posicion = s.contador_posicion + 4 ∧
    (agregar_dword s v).tabla_simbolos = s.tabla_simbolos ∧
    (agregar_dword s v).referencias_pendientes = s.referencias_pendientes := by
  unfold agregar_dword agregar_byte
  refine ⟨?_, rfl, rfl⟩
  simp only
  omega

/-- The line `m d, dsH` reaches the dispatch as mnemonic `m` with operand text
`d, DSH`, the numeral in upper case. -/
theorem procesar_linea_reg_inmediato (s : Ensamblador) (m d : Str) (c : Nat) (ds : Str)
    (hm0 : m ≠ []) (hm : ∀ ch ∈ m, limpio ch) (hd : (d, c) ∈ reg32_map)
    (hds : numeral_hex ds) :
    procesar_linea s (m ++ ' ' :: (d ++ ',' :: ' ' :: (ds ++ ['H']))) =
      despachar s m (d ++ ',' :: ' ' :: (ds.map toupper ++ ['H'])) := by
  have hp := reg32_props (d, c) hd
  have hu := numeral_hex_mayusculas ds hds
  have ho := operandos_reg_inmediato d c (ds.map toupper) hd hu.1 hu.2
  have hH : ∀ ch ∈ ['H'], limpio ch := by decide
  have hdl : ∀ ch ∈ d, limpio ch := by
    have key : ∀ p ∈ reg32_map, ∀ ch ∈ p.1, limpio ch := by decide
    exact key (d, c) hd
  apply procesar_linea_instruccion s _ m _
    (limpiar_linea_reg_inmediato m d ds ['H'] hm0 hm hdl hds hH) hm0 (fun ch hch => (hm ch hch).1)
    (by simp) ho.2.1 ho.2.2.1
  rw [ho.2.2.2.1]
  decide

/-- C1. For every register `d` of `reg32_map` with code `c` and every
hexadecimal numeral `ds` (either case) of value `v < 2 ^ 32`, processing the
line `MOV d, dsH` in any state appends exactly the five bytes `0xB8 + c`,
`v & 0xFF`, `(v >> 8) & 0xFF`, `(v >> 16) & 0xFF`, `(v >> 24) & 0xFF` to the
code buffer, and leaves the table of pending references (and the symbol table)
as it was. -/
theorem mov_reg_inmediato (s : Ensamblador) (d : Str) (c : Nat) (ds : Str)
    (hd : (d, c) ∈ reg32_map) (hds : numeral_hex ds) (hv : valor_hex ds < 2 ^ 32) :
    (procesar_linea s ("MOV ".toList ++ d ++ ", ".toList ++ ds ++ "H".toList)).codigo_hex =
      s.codigo_hex ++ [0xB8 + c, valor_hex ds &&& 0xFF, (valor_hex ds >>> 8) &&& 0xFF,
        (valor_hex ds >>> 16) &&& 0xFF, (valor_hex ds >>> 24) &&& 0xFF] ∧
    (procesar_linea s ("MOV ".toList ++ d ++ ", ".toList ++ ds ++ "H".toList)).referencias_pendientes =
      s.referencias_pendientes ∧
    (procesar_linea s ("MOV ".toList ++ d ++ ", ".toList ++ ds ++ "H".toList)).tabla_simbolos =
      s.tabla_simbolos := by
  have e : "MOV ".toList ++ d ++ ", ".toList ++ ds ++ "H".toList =
      "MOV".toList ++ ' ' :: (d ++ ',' :: ' ' :: (ds ++ ['H'])) := by simp
  have hp := reg32_props (d, c) hd
  have hu := numeral_hex_mayusculas ds hds
  have ho := operandos_reg_inmediato d c (ds.map toupper) hd hu.1 hu.2
  have hval := valor_hex_mayusculas ds hds.2
  have hst : stoul16 (ds.map toupper) = some (valor_hex ds) := by
    rw [stoul16_digitos _ hu.1.1 hu.1.2 (by rw [hval]; unfold ULONG_MAX; omega), hval]
  have hc : (0xB8 + c) % 256 = 0xB8 + c := Nat.mod_eq_of_lt (by have := hp.2.1; omega)
  rw [e, procesar_linea_reg_inmediato s _ d c ds (by decide) (by decide) hd hds]
  have hdesp : despachar s "MOV".toList (d ++ ',' :: ' ' :: (ds.map toupper ++ ['H'])) =
      agregar_dword (agregar_byte s (0xB8 + c)) (valor_hex ds % 2 ^ 32) := by
    unfold despachar
    rw [if_pos rfl]
    unfold procesar_mov
    simp only [ho.1, ho.2.2.2.2.1, ho.2.2.2.2.2.1, ho.2.2.2.2.2.2.1, ho.2.2.2.2.2.2.2, hst]
  rw [hdesp, Nat.mod_eq_of_lt hv]
  refine ⟨?_, ?_, ?_⟩
  · rw [agregar_dword_codigo _ _ hv, agregar_byte_codigo, hc]
    simp
  · rw [(agregar_dword_resto _ _).2.2]; rfl
  · rw [(agregar_dword_resto _ _).2.1]; rfl

/-- Witness of C1: `MOV EAX, 1H` from the initial state gives `B8 01 00 00 00`. -/
theorem mov_reg_inmediato_witness :
    (procesar_linea inicial "MOV EAX, 1H".toList).codigo_hex = [0xB8, 0x01, 0x00, 0x00, 0x00] ∧
    (procesar_linea inicial "MOV EAX, 1H".toList).referencias_pendientes = [] := by
  have h := mov_reg_inmediato inicial "EAX".toList 0 "1".toList (by decide)
    ⟨by decide, by decide⟩ (by decide)
  exact ⟨h.1, h.2.1⟩

/-- An instruction line `m resto` built from a token and cleaned operand text
is clean. -/
theorem normal_instruccion (m resto : Str) (hm0 : m ≠ []) (hm : ∀ c ∈ m, limpio c)
    (hr0 : resto ≠ []) (hr : normal resto) : normal (m ++ ' ' :: resto) := by
  refine ⟨?_, ?_, ?_⟩
  · intro c hc
    simp only [List.mem_append, List.mem_cons] at hc
    rcases hc with h | rfl | h
    · exact (hm c h).2
    · decide
    · exact hr.1 c h
  · intro c hc
    rw [head?_append_no_vacia _ _ hm0] at hc
    exact (hm c (List.mem_of_mem_head? hc)).1
  · intro c hc
    rw [getLast?_espacio _ _ hr0] at hc
    exact hr.2.2 c hc

theorem modrm_registros : ∀ a < 8, ∀ b < 8,
    generar_modrm 3 a b = 0xC0 ||| (a <<< 3) ||| b := by
  decide

/-- The line `m d, r` with two register names reaches the dispatch as mnemonic
`m` with operands `d` and `r`. -/
theorem procesar_linea_reg_reg (s : Ensamblador) (m d r : Str) (cd cr : Nat)
    (hm0 : m ≠ []) (hm : ∀ ch ∈ m, limpio ch) (hd : (d, cd) ∈ reg32_map)
    (hr : (r, cr) ∈ reg32_map) :
    procesar_linea s (m ++ ' ' :: (d ++ ',' :: ' ' :: r)) =
      despachar s m (d ++ ',' :: ' ' :: r) ∧
    separar_operandos (d ++ ',' :: ' ' :: r) = (d, r) := by
  have hpd := reg32_props (d, cd) hd
  have hpr := reg32_props (r, cr) hr
  have hnorm : normal (d ++ ',' :: ' ' :: r) :=
    normal_operandos d r hpd.2.2.1 hpd.2.2.2.1 hpr.2.2.1 hpr.2.2.2.1
  have hne : d ++ ',' :: ' ' :: r ≠ [] := by simp
  have hlast : (d ++ ',' :: ' ' :: r).getLast? = r.getLast? := by
    have e : d ++ ',' :: ' ' :: r = (d ++ [',', ' ']) ++ r := by simp
    rw [e, getLast?_append_no_vacia _ _ hpr.2.2.1]
  have hfin : ∀ p ∈ reg32_map, p.1.getLast? ≠ some ':' := by decide
  refine ⟨?_, ?_⟩
  · apply procesar_linea_instruccion s _ m _
      (limpiar_linea_normal _ (normal_instruccion m _ hm0 hm hne hnorm)) hm0
      (fun ch hch => (hm ch hch).1) hne hnorm
    · intro ch hch
      simp only [List.mem_append, List.mem_cons] at hch
      rcases hch with h | rfl | rfl | h
      · exact (hpd.2.2.2.2.1 ch h).2
      · decide
      · decide
      · exact (hpr.2.2.2.2.1 ch h).2
    · rw [hlast]
      exact hfin (r, cr) hr
  · exact separar_operandos_coma d r (fun ch hch => (hpd.2.2.2.2.1 ch hch).1) hpd.2.2.2.1
      hpr.2.2.2.1 (fun ch hch => (hpr.2.2.2.2.1 ch hch).2)

/-- C2. For every destination register `d` (code `cd`) and source register `r`
(code `cr`) of `reg32_map`, processing `MOV d, r` in any state appends exactly
the two bytes `0x89`, `0xC0 | (cr << 3) | cd`, processing `SUB d, r` appends
exactly `0x29`, `0xC0 | (cr << 3) | cd`, and neither changes the table of
pending references. -/
theorem mov_sub_reg_reg (s : Ensamblador) (d r : Str) (cd cr : Nat)
    (hd : (d, cd) ∈ reg32_map) (hr : (r, cr) ∈ reg32_map) :
    (procesar_linea s ("MOV ".toList ++ d ++ ", ".toList ++ r)).codigo_hex =
      s.codigo_hex ++ [0x89, 0xC0 ||| (cr <<< 3) ||| cd] ∧
    (procesar_linea s ("MOV ".toList ++ d ++ ", ".toList ++ r)).referencias_pendientes =
      s.referencias_pendientes ∧
    (procesar_linea s ("SUB ".toList ++ d ++ ", ".toList ++ r)).codigo_hex =
      s.codigo_hex ++ [0x29, 0xC0 ||| (cr <<< 3) ||| cd] ∧
    (procesar_linea s ("SUB ".toList ++ d ++ ", ".toList ++ r)).referencias_pendientes =
      s.referencias_pendientes := by
  have e1 : "MOV ".toList ++ d ++ ", ".toList ++ r =
      "MOV".toList ++ ' ' :: (d ++ ',' :: ' ' :: r) := by simp
  have e2 : "SUB ".toList ++ d ++ ", ".toList ++ r =
      "SUB".toList ++ ' ' :: (d ++ ',' :: ' ' :: r) := by simp
  have hpd := reg32_props (d, cd) hd
  have hpr := reg32_props (r, cr) hr
  have h1 := procesar_linea_reg_reg s "MOV".toList d r cd cr (by decide) (by decide) hd hr
  have h2 := procesar_linea_reg_reg s "SUB".toList d r cd cr (by decide) (by decide) hd hr
  have hmod : generar_modrm 3 cr cd % 256 = 0xC0 ||| (cr <<< 3) ||| cd := by
    rw [modrm_registros cr hpr.2.1 cd hpd.2.1]
    rw [← modrm_registros cr hpr.2.1 cd hpd.2.1]
    unfold generar_modrm
    exact Nat.mod_mod _ _
  have hmov : despachar s "MOV".toList (d ++ ',' :: ' ' :: r) =
      agregar_byte (agregar_byte s 0x89) (generar_modrm 3 cr cd) := by
    unfold despachar
    rw [if_pos rfl]
    unfold procesar_mov
    simp only [h1.2, hpd.1, hpr.1]
  have hsub : despachar s "SUB".toList (d ++ ',' :: ' ' :: r) =
      agregar_byte (agregar_byte s 0x29) (generar_modrm 3 cr cd) := by
    unfold despachar
    rw [if_neg (by decide), if_neg (by decide), if_pos rfl]
    unfold procesar_sub
    simp only [h2.2, hpd.1, hpr.1]
  rw [e1, e2, h1.1, h2.1, hmov, hsub]
  simp only [agregar_byte_codigo, hmod]
  refine ⟨by simp, rfl, by simp, rfl⟩

/-- Witness of C2: `MOV EAX, EBX` from the initial state gives `89 D8`. -/
theorem mov_sub_reg_reg_witness :
    (procesar_linea inicial "MOV EAX, EBX".toList).codigo_hex = [0x89, 0xD8] :=
  (mov_sub_reg_reg inicial "EAX".toList "EBX".toList 0 3 (by decide) (by decide)).1

/-- Branches 1 to 2 of `procesar_sub` when the destination is a register and
the source a literal with the `H` suffix that `stoul` accepts. -/
theorem procesar_sub_reg_inm (s : Ensamblador) (ops d src du : Str) (c v : Nat)
    (h1 : separar_operandos ops = (d, src)) (h2 : obtener_reg32 d = some c)
    (h3 : obtener_reg32 src = none) (h4 : con_sufijo_h src = true)
    (h5 : src.take (src.length - 1) = du) (h6 : stoul16 du = some v) :
    procesar_sub s ops =
      if c = 0 then agregar_dword (agregar_byte s 0x2D) (v % 2 ^ 32) else s := by
  unfold procesar_sub
  simp only [h1, h2, h3, h4, h5, h6]
  by_cases hc : c = 0
  · subst hc
    simp only [and_self, if_true]
  · have : ¬ (some c = some 0) := fun h => hc (Option.some.inj h)
    simp only [this, false_and, if_false, reduceCtorEq]
    rw [if_neg hc]

/-- C3. For every hexadecimal numeral `ds` of value `v < 2 ^ 32`, processing
`SUB EAX, dsH` in any state appends exactly the five bytes `0x2D` and `v` in
little-endian order; and for every register `d` of `reg32_map` other than
`EAX`, processing `SUB d, dsH` appends no byte and leaves the position counter
unchanged. -/
theorem sub_reg_inmediato (s : Ensamblador) (ds : Str) (hds : numeral_hex ds)
    (hv : valor_hex ds < 2 ^ 32) :
    (procesar_linea s ("SUB EAX, ".toList ++ ds ++ "H".toList)).codigo_hex =
      s.codigo_hex ++ [0x2D, valor_hex ds &&& 0xFF, (valor_hex ds >>> 8) &&& 0xFF,
        (valor_hex ds >>> 16) &&& 0xFF, (valor_hex ds >>> 24) &&& 0xFF] ∧
    ∀ d c, (d, c) ∈ reg32_map → d ≠ "EAX".toList →
      (procesar_linea s ("SUB ".toList ++ d ++ ", ".toList ++ ds ++ "H".toList)).codigo_hex =
        s.codigo_hex ∧
      (procesar_linea s ("SUB ".toList ++ d ++ ", ".toList ++ ds ++ "H".toList)).contador_posicion =
        s.contador_posicion := by
  have hu := numeral_hex_mayusculas ds hds
  have hval := valor_hex_mayusculas ds hds.2
  have hst : stoul16 (ds.map toupper) = some (valor_hex ds) := by
    rw [stoul16_digitos _ hu.1.1 hu.1.2 (by rw [hval]; unfold ULONG_MAX; omega), hval]
  have hgen : ∀ d c, (d, c) ∈ reg32_map →
      procesar_linea s ("SUB ".toList ++ d ++ ", ".toList ++ ds ++ "H".toList) =
        if c = 0 then agregar_dword (agregar_byte s 0x2D) (valor_hex ds % 2 ^ 32) else s := by
    intro d c hd
    have e : "SUB ".toList ++ d ++ ", ".toList ++ ds ++ "H".toList =
        "SUB".toList ++ ' ' :: (d ++ ',' :: ' ' :: (ds ++ ['H'])) := by simp
    have ho := operandos_reg_inmediato d c (ds.map toupper) hd hu.1 hu.2
    rw [e, procesar_linea_reg_inmediato s _ d c ds (by decide) (by decide) hd hds]
    unfold despachar
    rw [if_neg (by decide), if_neg (by decide), if_pos rfl]
    exact procesar_sub_reg_inm s _ d _ _ c _ ho.1 ho.2.2.2.2.1 ho.2.2.2.2.2.1 ho.2.2.2.2.2.2.1
      ho.2.2.2.2.2.2.2 hst
  refine ⟨?_, ?_⟩
  · have h := hgen "EAX".toList 0 (by decide)
    have e : "SUB EAX, ".toList ++ ds ++ "H".toList =
        "SUB ".toList ++ "EAX".toList ++ ", ".toList ++ ds ++ "H".toList := by simp
    rw [e, h, if_pos rfl, Nat.mod_eq_of_lt hv, agregar_dword_codigo _ _ hv, agregar_byte_codigo]
    simp
  · intro d c hd hne
    have hc : c ≠ 0 := by
      have key : ∀ p ∈ reg32_map, p.2 = 0 → p.1 = "EAX".toList := by decide
      exact fun h0 => hne (key (d, c) hd h0)
    rw [hgen d c hd, if_neg hc]
    exact ⟨rfl, rfl⟩

/-- Witness of C3: `SUB EAX, 1H` from the initial state gives `2D 01 00 00 00`,
and `SUB EBX, 1H` gives nothing. -/
theorem sub_reg_inmediato_witness :
    (procesar_linea inicial "SUB EAX, 1H".toList).codigo_hex = [0x2D, 0x01, 0x00, 0x00, 0x00] ∧
    (procesar_linea inicial "SUB EBX, 1H".toList).codigo_hex = [] :=
  have h := sub_reg_inmediato inicial "1".toList ⟨by decide, by decide⟩ (by decide)
  ⟨h.1, (h.2 "EBX".toList 3 (by decide) (by decide)).1⟩

/-- Cleaning `m dsH` (or `m ds`): only the digits change, to upper case. -/
theorem limpiar_linea_numeral (m ds fin : Str) (hm0 : m ≠ [])
    (hm : ∀ c ∈ m, limpio c) (hds : numeral_hex ds) (hfin : ∀ c ∈ fin, limpio c) :
    limpiar_linea (m ++ ' ' :: (ds ++ fin)) = m ++ ' ' :: (ds.map toupper ++ fin) := by
  have hup : ∀ l : Str, (∀ c ∈ l, limpio c) → l.map toupper = l := by
    intro l hl
    conv_rhs => rw [← List.map_id l]
    exact List.map_congr_left (fun c hc => (hl c hc).2.2)
  have hsp : ∀ c ∈ ds ++ fin, isspace c = false := by
    intro c hc
    rcases List.mem_append.1 hc with h | h
    · exact (hex_props c (hds.2 c h)).1
    · exact (hfin c h).1
  rw [limpiar_linea_mayusculas]
  · simp only [List.map_append, List.map_cons, hup m hm, hup fin hfin]
    rfl
  · intro c hc
    simp only [List.mem_append, List.mem_cons] at hc
    rcases hc with h | rfl | h | h
    · exact (hm c h).2.1
    · decide
    · exact (hex_props c (hds.2 c h)).2.1
    · exact (hfin c h).2.1
  · intro c hc
    rw [head?_append_no_vacia _ _ hm0] at hc
    exact (hm c (List.mem_of_mem_head? hc)).1
  · intro c hc
    rw [getLast?_espacio _ _ (by simp [hds.1])] at hc
    exact hsp c (List.mem_of_mem_getLast? hc)

/-- On a run of base-16 digits followed by `H`, `stoul` stops at the `H`. -/
theorem stoul16_digitos_h (ds : Str) (h0 : ds ≠ []) (hx : ∀ c ∈ ds, isxdigit c = true)
    (hv : valor_hex ds ≤ ULONG_MAX) : stoul16 (ds ++ ['H']) = some (valor_hex ds) := by
  cases ds with
  | nil => exact absurd rfl h0
  | cons a t =>
    have ha := digitos_hex_props a (isxdigit_mem a (hx a (List.mem_cons_self a t)))
    have hsp : ¬ (isspace a = true) := by simp [ha.1]
    have hH : isxdigit 'H' = false := by decide
    have htw : (a :: t ++ ['H']).takeWhile isxdigit = a :: t := by
      rw [List.takeWhile_append_of_pos hx]
      simp [hH]
    have hsig : quitar_signo (a :: t ++ ['H']) = (false, a :: t ++ ['H']) := by
      rw [List.cons_append]
      unfold quitar_signo
      split
      · next heq => injection heq with h1 h2; exact absurd h1 ha.2.2.2.2.2.1
      · next heq => injection heq with h1 h2; exact absurd h1 ha.2.2.2.2.2.2.1
      · rfl
    have hpre : quitar_0x (a :: t ++ ['H']) = a :: t ++ ['H'] := by
      rw [List.cons_append]
      unfold quitar_0x
      split
      · next x h u heq =>
        injection heq with h1 h2
        have hxx : x ≠ 'x' ∧ x ≠ 'X' := by
          cases t with
          | nil => simp at h2
          | cons b t2 =>
            simp at h2
            have hb := digitos_hex_props b (isxdigit_mem b (hx b (by simp)))
            rw [← h2.1]
            exact ⟨hb.2.2.2.2.2.2.2.1, hb.2.2.2.2.2.2.2.2.1⟩
        have : ¬ ((x = 'x' ∨ x = 'X') ∧ isxdigit h = true) := by
          rintro ⟨h3 | h3, _⟩
          · exact hxx.1 h3
          · exact hxx.2 h3
        rw [if_neg this, h1, h2]
      · rfl
    have hdw : (a :: t ++ ['H']).dropWhile isspace = a :: t ++ ['H'] := by
      rw [List.cons_append, List.dropWhile_cons_of_neg hsp]
    have hgt : ¬ (valor_hex (a :: t) > ULONG_MAX) := not_lt.2 hv
    unfold stoul16
    simp only [hdw, hsig, hpre, htw]
    simp [hgt]

/-- The `INT` branch of the dispatch. -/
theorem despachar_int (s : Ensamblador) (resto : Str) (v : Nat)
    (h1 : (leer_palabra resto).1 = resto) (h2 : stoul16 resto = some v) :
    despachar s "INT".toList resto = agregar_byte (agregar_byte s 0xCD) (v % 2 ^ 32) := by
  unfold despachar
  rw [if_neg (by decide), if_neg (by decide), if_neg (by decide), if_neg (by decide),
    if_neg (by decide), if_pos rfl]
  simp only [h1, h2]

/-- C4. For every hexadecimal numeral `ds` of value `v ≤ 0xFF`, processing
`INT dsH` and processing `INT ds` in any state each append exactly the two
bytes `0xCD`, `v` and leave the table of pending references as it was. -/
theorem int_inmediato (s : Ensamblador) (ds : Str) (hds : numeral_hex ds)
    (hv : valor_hex ds ≤ 0xFF) :
    (procesar_linea s ("INT ".toList ++ ds ++ "H".toList)).codigo_hex =
      s.codigo_hex ++ [0xCD, valor_hex ds] ∧
    (procesar_linea s ("INT ".toList ++ ds ++ "H".toList)).referencias_pendientes =
      s.referencias_pendientes ∧
    (procesar_linea s ("INT ".toList ++ ds)).codigo_hex = s.codigo_hex ++ [0xCD, valor_hex ds] ∧
    (procesar_linea s ("INT ".toList ++ ds)).referencias_pendientes =
      s.referencias_pendientes := by
  have hu := numeral_hex_mayusculas ds hds
  have hval := valor_hex_mayusculas ds hds.2
  have hmax : valor_hex (ds.map toupper) ≤ ULONG_MAX := by rw [hval]; unfold ULONG_MAX; omega
  have hb : valor_hex ds % 2 ^ 32 % 256 = valor_hex ds := by omega
  have hH : ∀ c ∈ ['H'], limpio c := by decide
  have hnil : ∀ c ∈ ([] : Str), limpio c := by simp
  have hgen : ∀ fin : Str, (fin = [] ∨ fin = ['H']) →
      procesar_linea s ("INT".toList ++ ' ' :: (ds ++ fin)) =
        agregar_byte (agregar_byte s 0xCD) (valor_hex ds % 2 ^ 32) := by
    intro fin hfin
    have hfl : ∀ c ∈ fin, limpio c := by
      rcases hfin with rfl | rfl
      · exact hnil
      · exact hH
    have hlim : ∀ c ∈ ds.map toupper ++ fin, limpio c := by
      intro c hc
      rcases List.mem_append.1 hc with h | h
      · exact hu.2 c h
      · exact hfl c h
    have hnl : ∀ c ∈ ds.map toupper ++ fin, c ≠ salto_linea := by
      intro c hc
      rcases List.mem_append.1 hc with h | h
      · exact (hex_props c (hu.1.2 c h)).2.2.2.2.1
      · rcases hfin with rfl | rfl
        · simp at h
        · rw [List.mem_singleton.1 h]; decide
    have hlast : (ds.map toupper ++ fin).getLast? ≠ some ':' := by
      intro hc
      have hmem := List.mem_of_mem_getLast? hc
      rcases List.mem_append.1 hmem with h | h
      · exact (hex_props _ (hu.1.2 _ h)).2.2.2.1 rfl
      · rcases hfin with rfl | rfl
        · simp at h
        · simp at h
    have hst : stoul16 (ds.map toupper ++ fin) = some (valor_hex ds) := by
      rcases hfin with rfl | rfl
      · rw [List.append_nil, stoul16_digitos _ hu.1.1 hu.1.2 hmax, hval]
      · rw [stoul16_digitos_h _ hu.1.1 hu.1.2 hmax, hval]
    rw [procesar_linea_instruccion s _ "INT".toList (ds.map toupper ++ fin)
      (limpiar_linea_numeral _ ds fin (by decide) (by decide) hds hfl) (by decide) (by decide)
      (by simp [hu.1.1]) (normal_de_limpio _ hlim) hnl hlast]
    exact despachar_int s _ _
      (by rw [leer_palabra_sola _ (fun c hc => (hlim c hc).1)]) hst
  have e1 : "INT ".toList ++ ds ++ "H".toList = "INT".toList ++ ' ' :: (ds ++ ['H']) := by simp
  have e2 : "INT ".toList ++ ds = "INT".toList ++ ' ' :: (ds ++ []) := by simp
  rw [e1, e2, hgen _ (Or.inr rfl), hgen _ (Or.inl rfl)]
  simp only [agregar_byte_codigo, hb]
  refine ⟨by simp, rfl, by simp, rfl⟩

/-- Witness of C4: `INT 80H` from the initial state gives `CD 80`. -/
theorem int_inmediato_witness :
    (procesar_linea inicial "INT 80H".toList).codigo_hex = [0xCD, 0x80] :=
  (int_inmediato inicial "80".toList ⟨by decide, by decide⟩ (by decide)).1

theorem a_uint32_lt (x : Int) : a_uint32 x < 2 ^ 32 := by
  unfold a_uint32
  have h1 : 0 ≤ x % 2 ^ 32 := Int.emod_nonneg _ (by norm_num)
  have h2 : x % 2 ^ 32 < 2 ^ 32 := Int.emod_lt_of_pos _ (by norm_num)
  omega

theorem agregar_dword_bytes (s : Ensamblador) (v : Nat) (hv : v < 2 ^ 32) :
    (agregar_dword s v).codigo_hex = s.codigo_hex ++ bytes_le v :=
  agregar_dword_codigo s v hv

/-- A jump line `m L` reaches the dispatch as mnemonic `m` with operand `L`,
which `limpiar_linea` leaves as it is. -/
theorem procesar_linea_salto (s : Ensamblador) (m l : Str) (hm0 : m ≠ [])
    (hm : ∀ c ∈ m, limpio c) (hl : nombre_etiqueta l) :
    procesar_linea s (m ++ ' ' :: l) = despachar s m l ∧ limpiar_linea l = l := by
  have hn : normal l := normal_de_limpio l hl.2.1
  refine ⟨?_, limpiar_linea_normal l hn⟩
  apply procesar_linea_instruccion s _ m l
    (limpiar_linea_normal _ (normal_instruccion m l hm0 hm hl.1 hn)) hm0
    (fun c hc => (hm c hc).1) hl.1 hn ?_ hl.2.2
  intro c hc hcon
  have h1 := (hl.2.1 c hc).1
  rw [hcon] at h1
  exact absurd h1 (by decide)

theorem tabla_condicionales_props : ∀ p ∈ tabla_condicionales,
    p.1 ≠ "MOV".toList ∧ p.1 ≠ "ADD".toList ∧ p.1 ≠ "SUB".toList ∧ p.1 ≠ "JMP".toList ∧
    p.1 ∈ mnemonicos_condicionales ∧ opcode_condicional p.1 = some p.2 ∧ p.1 ≠ [] ∧
    (∀ c ∈ p.1, limpio c) ∧ p.2 < 256 := by
  decide

/-- Function `procesar_condicional` on a known mnemonic and a cleaned label, by
cases on the symbol table. -/
theorem procesar_condicional_eq (s : Ensamblador) (m l : Str) (op : Nat)
    (hop : opcode_condicional m = some op) (hl : limpiar_linea l = l) :
    procesar_condicional s m l =
      match buscar s.tabla_simbolos l with
      | some destino =>
        agregar_dword
          { agregar_byte (agregar_byte s 0x0F) op with
            contador_posicion := s.contador_posicion + 1 + 1 + 4 }
          (a_uint32 (destino - (s.contador_posicion + 1 + 1 + 4)))
      | none =>
        agregar_dword
          { agregar_byte (agregar_byte s 0x0F) op with
            contador_posicion := s.contador_posicion + 1 + 1 + 4
            referencias_pendientes := agregar_ref s.referencias_pendientes l
              { posicion := s.contador_posicion + 1 + 1, tamano_inmediato := 4, tipo_salto := 1 } }
          0 := by
  unfold procesar_condicional
  simp only [hop, hl]
  rfl

/-- C6. For each of the twelve conditional-jump mnemonics `m` with second
opcode byte `op` in the table of the specification, and every label operand
`l`, processing `m l` in any state appends exactly six bytes: `0x0F`, `op`,
then four displacement bytes. When `l` is in the symbol table (address `a`) the
displacement is the little-endian encoding of `a - (contador_posicion + 6)` and
the table of pending references is unchanged; when `l` is not in the symbol
table the displacement is four zero bytes and one reference to `l` with width 4
and kind 1 (relative) is added to the table. -/
theorem condicional_seis_bytes (s : Ensamblador) (m l : Str) (op : Nat)
    (hm : (m, op) ∈ tabla_condicionales) (hl : nombre_etiqueta l) :
    match buscar s.tabla_simbolos l with
    | some a =>
      (procesar_linea s (m ++ " ".toList ++ l)).codigo_hex =
        s.codigo_hex ++ [0x0F, op] ++ bytes_le (a_uint32 (a - (s.contador_posicion + 6))) ∧
      (procesar_linea s (m ++ " ".toList ++ l)).referencias_pendientes =
        s.referencias_pendientes
    | none =>
      (procesar_linea s (m ++ " ".toList ++ l)).codigo_hex =
        s.codigo_hex ++ [0x0F, op, 0, 0, 0, 0] ∧
      (procesar_linea s (m ++ " ".toList ++ l)).referencias_pendientes =
        agregar_ref s.referencias_pendientes l
          { posicion := s.contador_posicion + 2, tamano_inmediato := 4, tipo_salto := 1 } := by
  have hp := tabla_condicionales_props (m, op) hm
  have e : m ++ " ".toList ++ l = m ++ ' ' :: l := by simp
  have h1 := procesar_linea_salto s m l hp.2.2.2.2.2.2.1 hp.2.2.2.2.2.2.2.1 hl
  have hd : despachar s m l = procesar_condicional s m l := by
    unfold despachar
    rw [if_neg hp.1, if_neg hp.2.1, if_neg hp.2.2.1, if_neg hp.2.2.2.1, if_pos hp.2.2.2.2.1]
  have hop : op % 256 = op := Nat.mod_eq_of_lt hp.2.2.2.2.2.2.2.2
  rw [e, h1.1, hd, procesar_condicional_eq s m l op hp.2.2.2.2.2.1 h1.2]
  cases hb : buscar s.tabla_simbolos l with
  | some a =>
    simp only
    refine ⟨?_, ?_⟩
    · rw [agregar_dword_bytes _ _ (a_uint32_lt _)]
      simp only [agregar_byte_codigo, hop]
      have e6 : s.contador_posicion + 1 + 1 + 4 = s.contador_posicion + 6 := by omega
      rw [e6]
      simp
    · rw [(agregar_dword_resto _ _).2.2]
      rfl
  | none =>
    simp only
    refine ⟨?_, ?_⟩
    · rw [agregar_dword_bytes _ _ (by norm_num)]
      simp only [agregar_byte_codigo, hop]
      simp [bytes_le]
    · rw [(agregar_dword_resto _ _).2.2]
      simp only
      have e2 : s.contador_posicion + 1 + 1 = s.contador_posicion + 2 := by omega
      rw [e2]

/-- Witness of C6: `JE FIN` from the initial state gives `0F 84 00 00 00 00` and
one relative reference at position 2. -/
theorem condicional_seis_bytes_witness :
    (procesar_linea inicial "JE FIN".toList).codigo_hex = [0x0F, 0x84, 0, 0, 0, 0] ∧
    (procesar_linea inicial "JE FIN".toList).referencias_pendientes =
      [("FIN".toList, [{ posicion := 2, tamano_inmediato := 4, tipo_salto := 1 }])] :=
  condicional_seis_bytes inicial "JE".toList "FIN".toList 0x84 (by decide) (by decide)

/-- C5 at the input `START:`, `JMP START`, `JMP START`. After the first two
lines the buffer holds 5 bytes, `START` has address 0 and the position counter
is 9. The second `JMP START` puts its first displacement byte at buffer offset
6, so the displacement relative to the end of the field is `0 - (6 + 4)`; the
code appends `E9` and the encoding of `0 - (10 + 4)`, which differs. -/
theorem jmp_desplazamiento_deriva :
    buscar (ensamblar ["START:".toList, "JMP START".toList]).tabla_simbolos "START".toList =
      some 0 ∧
    (ensamblar ["START:".toList, "JMP START".toList]).codigo_hex =
      [0xE9, 0xFB, 0xFF, 0xFF, 0xFF] ∧
    (ensamblar ["START:".toList, "JMP START".toList]).contador_posicion = 9 ∧
    (procesar_linea (ensamblar ["START:".toList, "JMP START".toList])
        "JMP START".toList).codigo_hex =
      [0xE9, 0xFB, 0xFF, 0xFF, 0xFF] ++ 0xE9 :: bytes_le (a_uint32 (0 - (10 + 4))) ∧
    bytes_le (a_uint32 (0 - (10 + 4))) = [0xF2, 0xFF, 0xFF, 0xFF] ∧
    bytes_le (a_uint32 (0 - (6 + 4))) = [0xF6, 0xFF, 0xFF, 0xFF] := by
  decide

/-- C7 at the inputs `MOV [X], EAX` and `MOV EAX, [X]` from the initial state:
the code appends five bytes, the opcode and four zero bytes; the ModRM byte
`05` that `procesar_mem_simple` computes is not in the buffer. -/
theorem mov_memoria_sin_modrm :
    (procesar_linea inicial "MOV [X], EAX".toList).codigo_hex = [0x89, 0, 0, 0, 0] ∧
    (procesar_linea inicial "MOV EAX, [X]".toList).codigo_hex = [0x8B, 0, 0, 0, 0] ∧
    (procesar_mem_simple (agregar_byte inicial 0x8B) "[X]".toList 0 false 0).map Prod.fst =
      some 0x05 := by
  decide

/-- C8 at the input `SUB [X], 1H` from the initial state: the code appends six
bytes, `83`, four zero bytes and the immediate; the ModRM byte `2D` that
`procesar_mem_simple` computes is not in the buffer. With the immediate `100H`
nothing is appended. -/
theorem sub_memoria_sin_modrm :
    (procesar_linea inicial "SUB [X], 1H".toList).codigo_hex = [0x83, 0, 0, 0, 0, 1] ∧
    (procesar_mem_simple (agregar_byte inicial 0x83) "[X]".toList 0 true 5).map Prod.fst =
      some 0x2D ∧
    (procesar_linea inicial "SUB [X], 100H".toList).codigo_hex = [] := by
  decide

/-- C9 at two inputs. `MOV [X], EAX` from the initial state appends its four
placeholder bytes at buffer indices 1 to 4 and registers position 2. After
`JMP A`, the line `JMP B` appends its placeholder bytes at buffer indices 6 to
9 and registers position 10. -/
theorem posicion_de_referencia_desplazada :
    (procesar_linea inicial "MOV [X], EAX".toList).codigo_hex = [0x89, 0, 0, 0, 0] ∧
    (procesar_linea inicial "MOV [X], EAX".toList).referencias_pendientes =
      [("X".toList, [{ posicion := 2, tamano_inmediato := 4, tipo_salto := 0 }])] ∧
    (ensamblar ["JMP A".toList]).codigo_hex = [0xE9, 0, 0, 0, 0] ∧
    (ensamblar ["JMP A".toList, "JMP B".toList]).codigo_hex =
      [0xE9, 0, 0, 0, 0, 0xE9, 0, 0, 0, 0] ∧
    (ensamblar ["JMP A".toList, "JMP B".toList]).referencias_pendientes =
      [("A".toList, [{ posicion := 1, tamano_inmediato := 4, tipo_salto := 1 }]),
       ("B".toList, [{ posicion := 10, tamano_inmediato := 4, tipo_salto := 1 }])] := by
  decide

theorem refs_planas_agregar (m : List (Str × List ReferenciaPendiente)) (l : Str)
    (r : ReferenciaPendiente) :
    (refs_planas (agregar_ref m l r)).Perm ((l, r) :: refs_planas m) := by
  induction m with
  | nil => simp [agregar_ref, refs_planas]
  | cons p t ih =>
    obtain ⟨k, rs⟩ := p
    unfold agregar_ref
    split
    · next h =>
      subst h
      simp only [refs_planas, List.map_append, List.map_cons, List.map_nil, List.append_assoc,
        List.singleton_append]
      exact List.perm_middle
    · simp only [refs_planas]
      exact (List.Perm.append_left _ ih).trans List.perm_middle

theorem disjuntas_symm (p q : Str × ReferenciaPendiente) (h : disjuntas p q) : disjuntas q p :=
  Or.symm h

theorem mem_asignar (t : List (Str × Int)) (l : Str) (v : Int) (p : Str × Int)
    (h : p ∈ asignar t l v) : p ∈ t ∨ p = (l, v) := by
  induction t with
  | nil =>
    simp only [asignar, List.mem_singleton] at h
    exact Or.inr h
  | cons q t ih =>
    obtain ⟨k, w⟩ := q
    unfold asignar at h
    split at h
    · next hk =>
      rcases List.mem_cons.1 h with h | h
      · exact Or.inr (by rw [h, hk])
      · exact Or.inl (List.mem_cons_of_mem _ h)
    · rcases List.mem_cons.1 h with h | h
      · exact Or.inl (by rw [h]; exact List.mem_cons_self _ _)
      · rcases ih h with h | h
        · exact Or.inl (List.mem_cons_of_mem _ h)
        · exact Or.inr h

theorem quieto_refl (s : Ensamblador) : Quieto s s := ⟨rfl, rfl, le_refl _⟩

theorem quieto_agregar_byte (s t : Ensamblador) (b : Nat) (h : Quieto s t) :
    Quieto s (agregar_byte t b) :=
  ⟨h.1, h.2.1, by have := h.2.2; show s.contador_posicion ≤ t.contador_posicion + 1; omega⟩

theorem quieto_agregar_dword (s t : Ensamblador) (v : Nat) (h : Quieto s t) :
    Quieto s (agregar_dword t v) := by
  have hr := agregar_dword_resto t v
  exact ⟨hr.2.1.trans h.1, hr.2.2.trans h.2.1, by have := h.2.2; rw [hr.1]; omega⟩

theorem paso_mem_simple (s t : Ensamblador) (op : Str) (rc : Nat) (ed : Bool) (ext : Nat)
    (r : Nat × Ensamblador) (h : Quieto s t) (hr : procesar_mem_simple t op rc ed ext = some r) :
    Paso s r.2 := by
  unfold procesar_mem_simple at hr
  split at hr
  · injection hr with hr
    subst hr
    refine Or.inr ⟨?_, ?_⟩
    · rw [(agregar_dword_resto _ _).2.1]; exact h.1
    · refine ⟨(op.drop 1).take (op.length - 2), t.contador_posicion + 1, 0, ?_, ?_, ?_⟩
      · rw [(agregar_dword_resto _ _).2.2]
        simp only
        rw [h.2.1]
      · have := h.2.2; omega
      · rw [(agregar_dword_resto _ _).1]
        simp only
        omega
  · exact absurd hr (by simp)

theorem paso_quieto (s t u : Ensamblador) (h : Paso s t) (hq : Quieto t u) : Paso s u := by
  rcases h with h | ⟨h1, l, p, k, h2, h3, h4⟩
  · exact Or.inl ⟨hq.1.trans h.1, hq.2.1.trans h.2.1, le_trans h.2.2 hq.2.2⟩
  · exact Or.inr ⟨hq.1.trans h1, l, p, k, hq.2.1.trans h2, h3, le_trans h4 hq.2.2⟩

theorem inv_paso (s t : Ensamblador) (hi : Inv s) (h : Paso s t) : Inv t := by
  obtain ⟨h0, ht, hpw, hr⟩ := hi
  rcases h with ⟨q1, q2, q3⟩ | ⟨h1, l, p, k, h2, h3, h4⟩
  · refine ⟨le_trans h0 q3, ?_, ?_, ?_⟩
    · rw [q1]
      exact fun x hx => ⟨(ht x hx).1, le_trans (ht x hx).2 q3⟩
    · rw [q2]; exact hpw
    · rw [q2]
      exact fun x hx => ⟨(hr x hx).1, le_trans (hr x hx).2.1 q3, (hr x hx).2.2⟩
  · have hperm := refs_planas_agregar s.referencias_pendientes l
      { posicion := p, tamano_inmediato := 4, tipo_salto := k }
    have hle : s.contador_posicion ≤ t.contador_posicion := by omega
    refine ⟨le_trans h0 hle, ?_, ?_, ?_⟩
    · rw [h1]
      exact fun x hx => ⟨(ht x hx).1, le_trans (ht x hx).2 hle⟩
    · rw [h2]
      refine (List.Perm.pairwise_iff (fun {a b} hab => disjuntas_symm a b hab) hperm).2 ?_
      refine List.pairwise_cons.2 ⟨?_, hpw⟩
      intro x hx
      have := (hr x hx).2.1
      exact Or.inr (by show x.2.posicion + 4 ≤ p; omega)
    · rw [h2]
      intro x hx
      rcases List.mem_cons.1 (hperm.subset hx) with hx | hx
      · subst hx
        exact ⟨by show 0 ≤ p; omega, h4, rfl⟩
      · exact ⟨(hr x hx).1, le_trans (hr x hx).2.1 hle, (hr x hx).2.2⟩

theorem paso_mov (s : Ensamblador) (ops : Str) : Paso s (procesar_mov s ops) := by
  have q0 := quieto_refl s
  unfold procesar_mov
  simp only
  split
  · exact Or.inl (quieto_agregar_byte _ _ _ (quieto_agregar_byte _ _ _ q0))
  · split
    · split
      · exact Or.inl (quieto_agregar_dword _ _ _ (quieto_agregar_byte _ _ _ q0))
      · exact Or.inl q0
    · split
      · next fin hfin =>
        split at hfin
        · split at hfin
          · next r hr =>
            simp only at hfin
            injection hfin with hfin
            subst hfin
            exact paso_mem_simple s _ _ _ _ _ r (quieto_agregar_byte _ _ _ q0) hr
          · simp at hfin
        · simp at hfin
      · next hnone =>
        have hq3 : Quieto s
            (match obtener_reg32 (separar_operandos ops).2,
                entre_corchetes (separar_operandos ops).1 with
              | some src_code, true =>
                match procesar_mem_simple (agregar_byte s 0x89) (separar_operandos ops).1
                    src_code true 0 with
                | some r => (some r.2, agregar_byte s 0x89)
                | none => (none, agregar_byte s 0x89)
              | _, _ => ((none : Option Ensamblador), s)).2 := by
          split
          · split
            · exact quieto_agregar_byte _ _ _ q0
            · exact quieto_agregar_byte _ _ _ q0
          · exact q0
        split
        · split
          · next r hr => exact paso_mem_simple s _ _ _ _ _ r (quieto_agregar_byte _ _ _ hq3) hr
          · exact Or.inl (quieto_agregar_byte _ _ _ hq3)
        · exact Or.inl hq3

theorem paso_sub (s : Ensamblador) (ops : Str) : Paso s (procesar_sub s ops) := by
  have q0 := quieto_refl s
  unfold procesar_sub
  simp only
  split
  · exact Or.inl (quieto_agregar_byte _ _ _ (quieto_agregar_byte _ _ _ q0))
  · split
    · split
      · exact Or.inl (quieto_agregar_dword _ _ _ (quieto_agregar_byte _ _ _ q0))
      · exact Or.inl q0
    · split
      · split
        · split
          · split
            · next r hr =>
              exact paso_quieto s _ _
                (paso_mem_simple s _ _ _ _ _ r (quieto_agregar_byte _ _ _ q0) hr)
                (quieto_agregar_byte _ _ _ (quieto_refl _))
            · exact Or.inl (quieto_agregar_byte _ _ _ q0)
          · exact Or.inl q0
        · exact Or.inl q0
      · exact Or.inl q0

/-- Bookkeeping after the opcode bytes of a jump: the counter is advanced by
four, then either the displacement is appended, or a relative reference at the
counter value before the advance is registered and four zero bytes appended. -/
theorem paso_salto (s t : Ensamblador) (l : Str) (h : Quieto s t)
    (hc : s.contador_posicion + 1 ≤ t.contador_posicion) :
    Paso s
      (match buscar t.tabla_simbolos l with
      | some destino =>
        agregar_dword { t with contador_posicion := t.contador_posicion + 4 }
          (a_uint32 (destino - (t.contador_posicion + 4)))
      | none =>
        agregar_dword
          { t with
            contador_posicion := t.contador_posicion + 4
            referencias_pendientes := agregar_ref t.referencias_pendientes l
              { posicion := t.contador_posicion, tamano_inmediato := 4, tipo_salto := 1 } }
          0) := by
  split
  · refine Or.inl (quieto_agregar_dword _ _ _ ⟨h.1, h.2.1, ?_⟩)
    show s.contador_posicion ≤ t.contador_posicion + 4
    omega
  · refine Or.inr ⟨?_, l, t.contador_posicion, 1, ?_, hc, ?_⟩
    · rw [(agregar_dword_resto _ _).2.1]; exact h.1
    · rw [(agregar_dword_resto _ _).2.2]
      simp only
      rw [h.2.1]
    · rw [(agregar_dword_resto _ _).1]
      simp only
      omega

theorem paso_jmp (s : Ensamblador) (ops : Str) : Paso s (procesar_jmp s ops) := by
  unfold procesar_jmp
  exact paso_salto s (agregar_byte s 0xE9) _ (quieto_agregar_byte _ _ _ (quieto_refl s))
    (le_refl _)

theorem paso_condicional (s : Ensamblador) (m ops : Str) :
    Paso s (procesar_condicional s m ops) := by
  unfold procesar_condicional
  simp only
  split
  · exact Or.inl (quieto_refl s)
  · next op _ =>
    exact paso_salto s (agregar_byte (agregar_byte s 0x0F) op) _
      (quieto_agregar_byte _ _ _ (quieto_agregar_byte _ _ _ (quieto_refl s)))
      (by show s.contador_posicion + 1 ≤ s.contador_posicion + 1 + 1; omega)

theorem paso_despachar (s : Ensamblador) (m resto : Str) : Paso s (despachar s m resto) := by
  unfold despachar
  split
  · exact paso_mov s resto
  · split
    · exact Or.inl (quieto_refl s)
    · split
      · exact paso_sub s resto
      · split
        · exact paso_jmp s resto
        · split
          · exact paso_condicional s m resto
          · split
            · simp only
              split
              · exact Or.inl (quieto_agregar_byte _ _ _ (quieto_agregar_byte _ _ _ (quieto_refl s)))
              · exact Or.inl (quieto_refl s)
            · exact Or.inl (quieto_refl s)

/-- Every line of phase one preserves the bookkeeping facts. -/
theorem inv_procesar_linea (s : Ensamblador) (linea : Str) (h : Inv s) :
    Inv (procesar_linea s linea) := by
  unfold procesar_linea
  simp only
  split
  · exact h
  · split
    · obtain ⟨h0, ht, hpw, hr⟩ := h
      refine ⟨h0, ?_, hpw, hr⟩
      intro p hp
      rcases mem_asignar _ _ _ _ hp with hp | hp
      · exact ht p hp
      · subst hp
        exact ⟨h0, le_refl _⟩
    · exact inv_paso s _ h (paso_despachar s _ _)

theorem inv_procesar_lineas (lineas : List Str) (s : Ensamblador) (h : Inv s) :
    Inv (procesar_lineas s lineas) := by
  induction lineas generalizing s with
  | nil => exact h
  | cons a t ih => exact ih _ (inv_procesar_linea s a h)

theorem inv_ensamblar (lineas : List Str) : Inv (ensamblar lineas) :=
  inv_procesar_lineas lineas inicial
    ⟨le_refl _, by simp [inicial], by simp [inicial, refs_planas], by simp [inicial, refs_planas]⟩

theorem bytes_le_suma (v : Nat) (hv : v < 2 ^ 32) :
    (v &&& 0xFF) + 256 * ((v >>> 8) &&& 0xFF) + 65536 * ((v >>> 16) &&& 0xFF) +
      16777216 * ((v >>> 24) &&& 0xFF) = v := by
  have h : ∀ x : Nat, x &&& 0xFF = x % 256 := fun x => Nat.and_pow_two_sub_one_eq_mod x 8
  simp only [h, Nat.shiftRight_eq_div_pow]
  omega

theorem parchear_nat (codigo : List Nat) (n v : Nat) :
    parchear codigo (n : Int) v =
      if n + 3 < codigo.length then
        (((codigo.set n (v &&& 0xFF)).set (n + 1) ((v >>> 8) &&& 0xFF)).set
          (n + 2) ((v >>> 16) &&& 0xFF)).set (n + 3) ((v >>> 24) &&& 0xFF)
      else codigo := by
  unfold parchear
  have e0 : (n : Int).toNat = n := by omega
  have e1 : ((n : Int) + 1).toNat = n + 1 := by omega
  have e2 : ((n : Int) + 2).toNat = n + 2 := by omega
  have e3 : ((n : Int) + 3).toNat = n + 3 := by omega
  rw [e0, e1, e2, e3]
  by_cases h : n + 3 < codigo.length
  · have h2 : (n : Int) + 3 < (codigo.length : Int) := by omega
    rw [if_pos h, if_pos h2]
  · have h2 : ¬ ((n : Int) + 3 < (codigo.length : Int)) := by omega
    rw [if_neg h, if_neg h2]

theorem parchear_length (codigo : List Nat) (pos : Int) (v : Nat) :
    (parchear codigo pos v).length = codigo.length := by
  unfold parchear
  split
  · simp
  · rfl

theorem parchear_fuera (codigo : List Nat) (n v j : Nat) (hj : j < n ∨ n + 4 ≤ j) :
    (parchear codigo (n : Int) v)[j]? = codigo[j]? := by
  rw [parchear_nat]
  split
  · rw [List.getElem?_set_ne (by omega), List.getElem?_set_ne (by omega),
      List.getElem?_set_ne (by omega), List.getElem?_set_ne (by omega)]
  · rfl

theorem parchear_leer (codigo : List Nat) (n v : Nat) (hn : n + 3 < codigo.length)
    (hv : v < 2 ^ 32) : leer_dword (parchear codigo (n : Int) v) n = v := by
  rw [parchear_nat, if_pos hn]
  unfold leer_dword
  have g0 : ((((codigo.set n (v &&& 0xFF)).set (n + 1) ((v >>> 8) &&& 0xFF)).set
      (n + 2) ((v >>> 16) &&& 0xFF)).set (n + 3) ((v >>> 24) &&& 0xFF))[n]? =
      some (v &&& 0xFF) := by
    rw [List.getElem?_set_ne (by omega), List.getElem?_set_ne (by omega),
      List.getElem?_set_ne (by omega), List.getElem?_set_self (by omega)]
  have g1 : ((((codigo.set n (v &&& 0xFF)).set (n + 1) ((v >>> 8) &&& 0xFF)).set
      (n + 2) ((v >>> 16) &&& 0xFF)).set (n + 3) ((v >>> 24) &&& 0xFF))[n + 1]? =
      some ((v >>> 8) &&& 0xFF) := by
    rw [List.getElem?_set_ne (by omega), List.getElem?_set_ne (by omega),
      List.getElem?_set_self (by simp; omega)]
  have g2 : ((((codigo.set n (v &&& 0xFF)).set (n + 1) ((v >>> 8) &&& 0xFF)).set
      (n + 2) ((v >>> 16) &&& 0xFF)).set (n + 3) ((v >>> 24) &&& 0xFF))[n + 2]? =
      some ((v >>> 16) &&& 0xFF) := by
    rw [List.getElem?_set_ne (by omega), List.getElem?_set_self (by simp; omega)]
  have g3 : ((((codigo.set n (v &&& 0xFF)).set (n + 1) ((v >>> 8) &&& 0xFF)).set
      (n + 2) ((v >>> 16) &&& 0xFF)).set (n + 3) ((v >>> 24) &&& 0xFF))[n + 3]? =
      some ((v >>> 24) &&& 0xFF) := by
    rw [List.getElem?_set_self (by simp; omega)]
  rw [g0, g1, g2, g3]
  exact bytes_le_suma v hv

theorem parchear_leer_fuera (codigo : List Nat) (n v q : Nat) (h : n + 4 ≤ q ∨ q + 4 ≤ n) :
    leer_dword (parchear codigo (n : Int) v) q = leer_dword codigo q := by
  unfold leer_dword
  rw [parchear_fuera _ _ _ q (by omega), parchear_fuera _ _ _ (q + 1) (by omega),
    parchear_fuera _ _ _ (q + 2) (by omega), parchear_fuera _ _ _ (q + 3) (by omega)]

theorem a_uint32_de_nat (x : Int) (h0 : 0 ≤ x) (h1 : x < 2 ^ 32) : (a_uint32 x : Int) = x := by
  unfold a_uint32
  have e : (2 : Int) ^ 32 = 4294967296 := by norm_num
  rw [e] at h1 ⊢
  omega

theorem a_int32_a_uint32 (x : Int) (h0 : -(2 ^ 31) ≤ x) (h1 : x < 2 ^ 31) :
    a_int32 (a_uint32 x) = x := by
  unfold a_int32 a_uint32
  have e : (2 : Int) ^ 32 = 4294967296 := by norm_num
  have e1 : (2 : Int) ^ 31 = 2147483648 := by norm_num
  have e2 : (2 : Nat) ^ 31 = 2147483648 := by norm_num
  rw [e1] at h0 h1
  rw [e, e2]
  split <;> omega

theorem resolver_plano_length (tabla : List (Str × Int)) (codigo : List Nat)
    (p : Str × ReferenciaPendiente) :
    (resolver_plano tabla codigo p).length = codigo.length := by
  unfold resolver_plano
  split
  · rfl
  · exact parchear_length _ _ _

theorem foldl_resolver_plano_length (tabla : List (Str × Int))
    (f : List (Str × ReferenciaPendiente)) (codigo : List Nat) :
    (f.foldl (resolver_plano tabla) codigo).length = codigo.length := by
  induction f generalizing codigo with
  | nil => rfl
  | cons p t ih => rw [List.foldl_cons, ih, resolver_plano_length]

/-- The resolver is one pass of `resolver_plano` over the flattened entries. -/
theorem resolver_por_planas (s : Ensamblador) (orden : List (Str × List ReferenciaPendiente)) :
    (resolver_en_orden s orden).codigo_hex =
      (refs_planas orden).foldl (resolver_plano s.tabla_simbolos) s.codigo_hex := by
  show orden.foldl (resolver_etiqueta s.tabla_simbolos) s.codigo_hex = _
  generalize s.codigo_hex = codigo
  induction orden generalizing codigo with
  | nil => rfl
  | cons p t ih =>
    obtain ⟨l, rs⟩ := p
    rw [List.foldl_cons, ih]
    simp only [refs_planas, List.foldl_append]
    congr 1
    unfold resolver_etiqueta
    simp only
    cases hb : buscar s.tabla_simbolos l with
    | none =>
      simp only
      clear ih
      induction rs with
      | nil => rfl
      | cons r rs ih2 =>
        rw [List.map_cons, List.foldl_cons]
        have e : resolver_plano s.tabla_simbolos codigo (l, r) = codigo := by
          unfold resolver_plano
          simp only [hb]
        rw [e, ← ih2]
    | some d =>
      simp only
      clear ih
      induction rs generalizing codigo with
      | nil => rfl
      | cons r rs ih2 =>
        rw [List.map_cons, List.foldl_cons, List.foldl_cons]
        have e : resolver_plano s.tabla_simbolos codigo (l, r) = resolver_ref d codigo r := by
          unfold resolver_plano
          simp only [hb]
        rw [e, ih2]

/-- Rearranging the entries of the pending table rearranges the flattened
list. -/
theorem refs_planas_perm (m n : List (Str × List ReferenciaPendiente)) (h : m.Perm n) :
    (refs_planas m).Perm (refs_planas n) := by
  induction h with
  | nil => exact List.Perm.refl _
  | cons x _ ih =>
    obtain ⟨l, rs⟩ := x
    exact List.Perm.append_left _ ih
  | swap x y t =>
    obtain ⟨l, rs⟩ := x
    obtain ⟨k, ks⟩ := y
    simp only [refs_planas]
    exact List.perm_append_comm_assoc _ _ _
  | trans _ _ ih1 ih2 => exact ih1.trans ih2

/-- A pass over references whose ranges avoid `[q, q + 3]` leaves the value
stored at `q` as it was. -/
theorem foldl_resolver_plano_fuera (tabla : List (Str × Int))
    (f : List (Str × ReferenciaPendiente)) (codigo : List Nat) (q : Nat)
    (hf : ∀ p ∈ f, 0 ≤ p.2.posicion ∧
      (p.2.posicion + 4 ≤ (q : Int) ∨ (q : Int) + 4 ≤ p.2.posicion)) :
    leer_dword (f.foldl (resolver_plano tabla) codigo) q = leer_dword codigo q := by
  induction f generalizing codigo with
  | nil => rfl
  | cons p t ih =>
    rw [List.foldl_cons, ih _ (fun x hx => hf x (List.mem_cons_of_mem _ hx))]
    have hp := hf p (List.mem_cons_self _ _)
    unfold resolver_plano
    split
    · rfl
    · unfold resolver_ref
      simp only
      obtain ⟨n, hn⟩ := Int.eq_ofNat_of_zero_le hp.1
      rw [hn]
      rw [hn] at hp
      exact parchear_leer_fuera _ _ _ _ (by omega)

/-- Value that the resolver writes for a reference to a label at address `a`. -/
theorem resolver_plano_leer (tabla : List (Str × Int)) (f : List (Str × ReferenciaPendiente))
    (codigo : List Nat) (hpw : f.Pairwise disjuntas) (hpos : ∀ p ∈ f, 0 ≤ p.2.posicion)
    (x : Str × ReferenciaPendiente) (hx : x ∈ f) (a : Int) (ha : buscar tabla x.1 = some a)
    (hlen : x.2.posicion + 3 < (codigo.length : Int)) :
    leer_dword (f.foldl (resolver_plano tabla) codigo) x.2.posicion.toNat =
      if x.2.tipo_salto = 0 then a_uint32 a
      else a_uint32 (a - (x.2.posicion + x.2.tamano_inmediato)) := by
  induction f generalizing codigo with
  | nil => simp at hx
  | cons p t ih =>
    rw [List.foldl_cons]
    have hpw2 := List.pairwise_cons.1 hpw
    rcases List.mem_cons.1 hx with h | h
    · subst h
      obtain ⟨n, hn⟩ := Int.eq_ofNat_of_zero_le (hpos x (List.mem_cons_self _ _))
      have hn2 : x.2.posicion.toNat = n := by omega
      rw [hn2, foldl_resolver_plano_fuera tabla t _ n]
      · unfold resolver_plano
        simp only [ha]
        unfold resolver_ref
        simp only
        rw [hn]
        rw [hn] at hlen
        have hl : n + 3 < codigo.length := by omega
        split
        · exact parchear_leer _ _ _ hl (a_uint32_lt _)
        · exact parchear_leer _ _ _ hl (a_uint32_lt _)
      · intro q hq
        refine ⟨hpos q (List.mem_cons_of_mem _ hq), ?_⟩
        have hd := hpw2.1 q hq
        unfold disjuntas at hd
        rw [hn] at hd
        omega
    · exact ih _ hpw2.2 (fun q hq => hpos q (List.mem_cons_of_mem _ hq)) h
        (by rw [resolver_plano_length]; exact hlen)

theorem mem_refs_planas (m : List (Str × List ReferenciaPendiente)) (l : Str)
    (rs : List ReferenciaPendiente) (r : ReferenciaPendiente) (hm : (l, rs) ∈ m) (hr : r ∈ rs) :
    (l, r) ∈ refs_planas m := by
  induction m with
  | nil => simp at hm
  | cons p t ih =>
    obtain ⟨k, ks⟩ := p
    simp only [refs_planas, List.mem_append, List.mem_map]
    rcases List.mem_cons.1 hm with h | h
    · injection h with h1 h2
      subst h1; subst h2
      exact Or.inl ⟨r, hr, rfl⟩
    · exact Or.inr (ih h)

/-- C10. For every program `lineas` processed from the initial state, every
order `orden` in which the resolver may visit the entries of the pending table,
and every pending reference `r` of a label `l` that the resolver resolves (`l`
is in the symbol table with address `a`, and `r.posicion + 4` does not exceed
the buffer length), with `a` and the buffer length below `2 ^ 31`: after the
resolver has finished, the four buffer bytes at `r.posicion`, read
little-endian, equal `a` when `r` is absolute (kind 0), and, read as a signed
32-bit integer and added to `r.posicion + 4`, equal `a` when `r` is relative
(kind 1). The value is the one found after the whole pass, so no later patch of
another reference has overwritten it. -/
theorem resolver_escribe_destino (lineas : List Str)
    (orden : List (Str × List ReferenciaPendiente)) (l : Str)
    (rs : List ReferenciaPendiente) (r : ReferenciaPendiente) (a : Int)
    (horden : orden.Perm (ensamblar lineas).referencias_pendientes)
    (hm : (l, rs) ∈ (ensamblar lineas).referencias_pendientes) (hr : r ∈ rs)
    (ha : buscar (ensamblar lineas).tabla_simbolos l = some a)
    (hpos : r.posicion + 4 ≤ ((ensamblar lineas).codigo_hex.length : Int))
    (ha31 : a < 2 ^ 31) (hlen31 : (ensamblar lineas).codigo_hex.length < 2 ^ 31) :
    (r.tipo_salto = 0 →
      (leer_dword (resolver_en_orden (ensamblar lineas) orden).codigo_hex
        r.posicion.toNat : Int) = a) ∧
    (r.tipo_salto = 1 →
      a_int32 (leer_dword (resolver_en_orden (ensamblar lineas) orden).codigo_hex
        r.posicion.toNat) + (r.posicion + 4) = a) := by
  obtain ⟨_, ht, hpw, hrf⟩ := inv_ensamblar lineas
  have hperm := refs_planas_perm _ _ horden
  have hx := hperm.symm.subset (mem_refs_planas _ l rs r hm hr)
  have hra := hrf _ (hperm.subset hx)
  have hta := ht _ (buscar_mem _ _ _ ha)
  have hval := resolver_plano_leer (ensamblar lineas).tabla_simbolos _
    (ensamblar lineas).codigo_hex
    ((List.Perm.pairwise_iff (fun {x y} hxy => disjuntas_symm x y hxy) hperm).2 hpw)
    (fun p hp => (hrf p (hperm.subset hp)).1) (l, r) hx a ha
    (by show r.posicion + 3 < _; omega)
  dsimp only at hval
  rw [resolver_por_planas, hval]
  have e31 : (2 : Int) ^ 31 = 2147483648 := by norm_num
  have e31n : (2 : Nat) ^ 31 = 2147483648 := by norm_num
  rw [e31] at ha31
  rw [e31n] at hlen31
  dsimp only at hra hta
  refine ⟨?_, ?_⟩
  · intro h0
    rw [if_pos h0]
    exact a_uint32_de_nat a hta.1 (by norm_num; omega)
  · intro h1
    have hne : ¬ (r.tipo_salto = 0) := by rw [h1]; decide
    rw [if_neg hne, hra.2.2, a_int32_a_uint32 _ (by norm_num; omega) (by norm_num; omega)]
    omega

/-- Witness of C10: in `JE FIN`, `FIN:` the relative reference at position 2 is
patched so that the signed value plus 6 is the address 10 of `FIN`; in
`MOV [X], EAX`, `INT 80H`, `X:` the absolute reference at position 2 is patched
with the address 7 of `X`. -/
theorem resolver_escribe_destino_witness :
    a_int32 (leer_dword (resolver_referencias_pendientes
      (ensamblar ["JE FIN".toList, "FIN:".toList])).codigo_hex 2) + (2 + 4) = 10 ∧
    (leer_dword (resolver_referencias_pendientes
      (ensamblar ["MOV [X], EAX".toList, "INT 80H".toList, "X:".toList])).codigo_hex 2 : Int) =
      7 :=
  ⟨(resolver_escribe_destino ["JE FIN".toList, "FIN:".toList] _ "FIN".toList
      [{ posicion := 2, tamano_inmediato := 4, tipo_salto := 1 }]
      { posicion := 2, tamano_inmediato := 4, tipo_salto := 1 } 10 (List.Perm.refl _)
      (by decide) (by decide) (by decide) (by decide) (by decide) (by decide)).2 rfl,
   (resolver_escribe_destino ["MOV [X], EAX".toList, "INT 80H".toList, "X:".toList] _
      "X".toList [{ posicion := 2, tamano_inmediato := 4, tipo_salto := 0 }]
      { posicion := 2, tamano_inmediato := 4, tipo_salto := 0 } 7 (List.Perm.refl _)
      (by decide) (by decide) (by decide) (by decide) (by decide) (by decide)).1 rfl⟩

/-- C11 at the reachable state after the line `JMP X`, with label `L` and
address 9. The state with `L` bound is the one the label line `L:` gives. With
`L` bound, `JMP L` then the resolver leave `E9 FB FF FF FF` for the jump; with
`L` unbound, `JMP L`, then binding `L` to 9, then the resolver leave
`E9 00 00 00 00`: the registered position 10 is past the buffer, so the
resolver skips the patch. -/
theorem salto_inmediato_y_diferido_difieren :
    buscar (ensamblar ["JMP X".toList]).tabla_simbolos "L".toList = none ∧
    procesar_linea (ensamblar ["JMP X".toList]) "L:".toList =
      ligar (ensamblar ["JMP X".toList]) "L".toList 9 ∧
    (resolver_referencias_pendientes
      (procesar_linea (ligar (ensamblar ["JMP X".toList]) "L".toList 9)
        "JMP L".toList)).codigo_hex =
      [0xE9, 0, 0, 0, 0, 0xE9, 0xFB, 0xFF, 0xFF, 0xFF] ∧
    (resolver_referencias_pendientes
      (ligar (procesar_linea (ensamblar ["JMP X".toList]) "JMP L".toList)
        "L".toList 9)).codigo_hex =
      [0xE9, 0, 0, 0, 0, 0xE9, 0, 0, 0, 0] ∧
    (procesar_linea (ensamblar ["JMP X".toList]) "JMP L".toList).referencias_pendientes =
      [("X".toList, [{ posicion := 1, tamano_inmediato := 4, tipo_salto := 1 }]),
       ("L".toList, [{ posicion := 10, tamano_inmediato := 4, tipo_salto := 1 }])] := by
  decide

/-- C12 at the input `JMP A` from the initial state: after the line the
position counter is 9 and the buffer holds 5 bytes. -/
theorem contador_adelantado_tras_salto :
    (ensamblar ["JMP A".toList]).contador_posicion = 9 ∧
    (ensamblar ["JMP A".toList]).codigo_hex = [0xE9, 0, 0, 0, 0] ∧
    (ensamblar ["JMP A".toList]).codigo_hex.length = 5 := by
  decide

/-- C13 at the input `JMP A`, `L:` from the initial state: when the label line
is processed the buffer holds 5 bytes, and the address stored for `L` is 9. -/
theorem direccion_de_etiqueta_adelantada :
    (ensamblar ["JMP A".toList]).codigo_hex.length = 5 ∧
    buscar (ensamblar ["JMP A".toList, "L:".toList]).tabla_simbolos "L".toList = some 9 ∧
    (ensamblar ["JMP A".toList, "L:".toList]).codigo_hex.length = 5 := by
  decide

/-- C15 at two inputs. After `MOV [X], EAX` the buffer holds 5 bytes and the
pending reference has position 2 and width 4, so `2 + 4 > 5`; with `X:` added
the resolver takes its out-of-range branch and the buffer is left unpatched.
After `JMP A`, `JMP B` the buffer holds 10 bytes and the reference of `B` has
position 10. -/
theorem referencia_fuera_de_rango :
    (ensamblar ["MOV [X], EAX".toList]).codigo_hex.length = 5 ∧
    (ensamblar ["MOV [X], EAX".toList]).referencias_pendientes =
      [("X".toList, [{ posicion := 2, tamano_inmediato := 4, tipo_salto := 0 }])] ∧
    (resolver_referencias_pendientes (ensamblar ["MOV [X], EAX".toList, "X:".toList])).codigo_hex =
      (ensamblar ["MOV [X], EAX".toList, "X:".toList]).codigo_hex ∧
    buscar (ensamblar ["MOV [X], EAX".toList, "X:".toList]).tabla_simbolos "X".toList = some 5 ∧
    (ensamblar ["JMP A".toList, "JMP B".toList]).codigo_hex.length = 10 ∧
    (ensamblar ["JMP A".toList, "JMP B".toList]).referencias_pendientes =
      [("A".toList, [{ posicion := 1, tamano_inmediato := 4, tipo_salto := 1 }]),
       ("B".toList, [{ posicion := 10, tamano_inmediato := 4, tipo_salto := 1 }])] := by
  decide

/-- C18 at the input `MOV EAX, 1GH` from the initial state: the operand `1GH`
is no register name, is not bracketed, and `1G` is not a run of base-16 digits,
yet the code appends `B8 01 00 00 00` and advances the counter to 5, because
`stoul` reads the leading `1` and ignores the `G`. The operand `-1H` is
accepted in the same way and gives `B8 FF FF FF FF`. -/
theorem mov_acepta_inmediato_invalido :
    obtener_reg32 "1GH".toList = none ∧ entre_corchetes "1GH".toList = false ∧
    isxdigit 'G' = false ∧
    (procesar_linea inicial "MOV EAX, 1GH".toList).codigo_hex = [0xB8, 0x01, 0, 0, 0] ∧
    (procesar_linea inicial "MOV EAX, 1GH".toList).contador_posicion = 5 ∧
    (procesar_linea inicial "MOV EAX, -1H".toList).codigo_hex = [0xB8, 0xFF, 0xFF, 0xFF, 0xFF] := by
  decide

/-- C19 at the inputs `MOV EAX, 1` and `MOV EBX, 0` from the initial state: the
code appends nothing and leaves the state as it was, since the source operand
has no `H` suffix. -/
theorem mov_numeral_sin_sufijo :
    procesar_linea inicial "MOV EAX, 1".toList = inicial ∧
    procesar_linea inicial "MOV EBX, 0".toList = inicial ∧
    (procesar_linea inicial "MOV EAX, 1".toList).codigo_hex = [] := by
  decide

theorem despachar_fuera_del_conjunto (s : Ensamblador) (m resto : Str)
    (h : m = "ADD".toList ∨ m ∉ conjunto_despacho) : despachar s m resto = s := by
  unfold despachar
  rcases h with h | h
  · subst h
    rw [if_neg (by decide), if_pos rfl]
    rfl
  · have h1 : m ≠ "MOV".toList := fun e => h (by rw [e]; decide)
    have h2 : m ≠ "ADD".toList := fun e => h (by rw [e]; decide)
    have h3 : m ≠ "SUB".toList := fun e => h (by rw [e]; decide)
    have h4 : m ≠ "JMP".toList := fun e => h (by rw [e]; decide)
    have h5 : m ∉ mnemonicos_condicionales := fun e =>
      h (List.mem_append_left _ (List.mem_append_right _ e))
    have h6 : m ≠ "INT".toList := fun e => h (by rw [e]; decide)
    rw [if_neg h1, if_neg h2, if_neg h3, if_neg h4, if_neg h5, if_neg h6]

/-- C16. For every state `s` and every line: if the line cleans to the empty
string, or it is an instruction line (not a label definition) whose mnemonic is
`ADD` or is not in the dispatch set, then `procesar_linea` returns `s` itself:
code buffer, position counter, symbol table and pending table are all
unchanged. -/
theorem linea_sin_efecto (s : Ensamblador) (linea : Str)
    (h : limpiar_linea linea = [] ∨
      (es_etiqueta (limpiar_linea linea) = false ∧
        (mnemonico linea = "ADD".toList ∨ mnemonico linea ∉ conjunto_despacho))) :
    procesar_linea s linea = s := by
  unfold procesar_linea
  simp only
  rcases h with h | ⟨h1, h2⟩
  · rw [if_pos h]
  · split
    · rfl
    · rw [if_neg (by rw [h1]; decide)]
      exact despachar_fuera_del_conjunto s _ _ h2

/-- Witness of C16: `FOO X, Y` from the initial state leaves the state as it
was, and so does a line holding only a comment. -/
theorem linea_sin_efecto_witness :
    procesar_linea inicial "FOO X, Y".toList = inicial ∧
    procesar_linea inicial "  ; nada".toList = inicial ∧
    procesar_linea inicial "ADD EAX, 1H".toList = inicial :=
  ⟨linea_sin_efecto inicial "FOO X, Y".toList (Or.inr ⟨by decide, Or.inr (by decide)⟩),
   linea_sin_efecto inicial "  ; nada".toList (Or.inl (by decide)),
   linea_sin_efecto inicial "ADD EAX, 1H".toList (Or.inr ⟨by decide, Or.inl (by decide)⟩)⟩

theorem es_minuscula_mem (c : Char) (h : es_minuscula c = true) : c ∈ minusculas := by
  have hc : c = Char.ofNat c.toNat := (Char.ofNat_toNat c).symm
  unfold es_minuscula at h
  generalize hn : c.toNat = n at h hc
  have hr : 97 ≤ n ∧ n ≤ 122 := by simpa using h
  subst hc
  obtain ⟨h1, h2⟩ := hr
  interval_cases n <;> decide

theorem minusculas_props : ∀ c ∈ minusculas,
    toupper c ≠ ';' ∧ isspace (toupper c) = false ∧ isspace c = false ∧
    toupper (toupper c) = toupper c ∧ es_minuscula (toupper c) = false := by
  decide

/-- Function `toupper` keeps `;` out, keeps white space white space and the
rest not, is idempotent, and never returns a lower-case letter. -/
theorem toupper_props (c : Char) :
    (c ≠ ';' → toupper c ≠ ';') ∧ isspace (toupper c) = isspace c ∧
    toupper (toupper c) = toupper c ∧ es_minuscula (toupper c) = false := by
  by_cases h : es_minuscula c = true
  · have hp := minusculas_props c (es_minuscula_mem c h)
    exact ⟨fun _ => hp.1, by rw [hp.2.1, hp.2.2.1], hp.2.2.2.1, hp.2.2.2.2⟩
  · have hid : toupper c = c := by
      unfold toupper
      rw [if_neg]
      intro hcon
      exact h (by unfold es_minuscula; simp [hcon.1, hcon.2])
    rw [hid]
    exact ⟨fun hc => hc, rfl, hid, by simpa using h⟩

theorem head?_dropWhile_falso (p : Char → Bool) (l : Str) :
    ∀ c ∈ (l.dropWhile p).head?, p c = false := by
  induction l with
  | nil => simp
  | cons a t ih =>
    by_cases ha : p a = true
    · rw [List.dropWhile_cons_of_pos ha]
      exact ih
    · rw [List.dropWhile_cons_of_neg ha]
      intro c hc
      simp only [List.head?_cons, Option.mem_def, Option.some.injEq] at hc
      subst hc
      simpa using ha

theorem dropWhile_concat_falso (p : Char → Bool) (a : Str) (h : Char) (hp : p h = false) :
    ∃ u, (a ++ [h]).dropWhile p = u ++ [h] := by
  induction a with
  | nil =>
    refine ⟨[], ?_⟩
    rw [List.nil_append, List.dropWhile_cons_of_neg (by simp [hp])]
  | cons x t ih =>
    by_cases hx : p x = true
    · rw [List.cons_append, List.dropWhile_cons_of_pos hx]
      exact ih
    · rw [List.cons_append, List.dropWhile_cons_of_neg hx]
      exact ⟨x :: t, rfl⟩

/-- Trimming the end of a line keeps its first character. -/
theorem head?_recorte_final (l : Str) (h : ∀ c ∈ l.head?, isspace c = false) :
    ∀ c ∈ ((l.reverse.dropWhile isspace).reverse).head?, isspace c = false := by
  cases l with
  | nil => simp
  | cons a t =>
    have ha : isspace a = false := h a rfl
    obtain ⟨u, hu⟩ := dropWhile_concat_falso isspace t.reverse a ha
    rw [List.reverse_cons, hu]
    intro c hc
    simp only [List.reverse_append, List.reverse_cons, List.reverse_nil, List.nil_append,
      List.singleton_append, List.head?_cons, Option.mem_def, Option.some.injEq] at hc
    subst hc
    exact ha

/-- C17. For every input string, `limpiar_linea` applied to its own output
returns that output unchanged; the output contains no `;` and no lower-case
letter `a` to `z`, and neither its first nor its last character is white
space. -/
theorem limpiar_linea_idempotente (linea : Str) :
    limpiar_linea (limpiar_linea linea) = limpiar_linea linea ∧
    (∀ c ∈ limpiar_linea linea, c ≠ ';' ∧ es_minuscula c = false) ∧
    (∀ c ∈ (limpiar_linea linea).head?, isspace c = false) ∧
    (∀ c ∈ (limpiar_linea linea).getLast?, isspace c = false) := by
  have hmem : ∀ c ∈ limpiar_linea linea, ∃ c0, c0 ≠ ';' ∧ c = toupper c0 := by
    intro c hc
    unfold limpiar_linea at hc
    simp only [List.mem_map] at hc
    obtain ⟨c0, h0, rfl⟩ := hc
    refine ⟨c0, ?_, rfl⟩
    have h1 : c0 ∈ List.dropWhile isspace (List.takeWhile (fun ch => ch != ';') linea) :=
      List.mem_reverse.1 ((List.dropWhile_sublist isspace).subset (List.mem_reverse.1 h0))
    have h2 := List.mem_takeWhile_imp ((List.dropWhile_sublist isspace).subset h1)
    simpa using h2
  have hhead : ∀ c ∈ (limpiar_linea linea).head?, isspace c = false := by
    intro c hc
    unfold limpiar_linea at hc
    simp only [List.head?_map, Option.mem_def, Option.map_eq_some'] at hc
    obtain ⟨c0, h0, rfl⟩ := hc
    rw [(toupper_props c0).2.1]
    exact head?_recorte_final _ (head?_dropWhile_falso isspace _) c0 h0
  have hlast : ∀ c ∈ (limpiar_linea linea).getLast?, isspace c = false := by
    intro c hc
    unfold limpiar_linea at hc
    simp only [List.getLast?_map, List.getLast?_reverse, Option.mem_def,
      Option.map_eq_some'] at hc
    obtain ⟨c0, h0, rfl⟩ := hc
    rw [(toupper_props c0).2.1]
    exact head?_dropWhile_falso isspace _ c0 h0
  refine ⟨?_, ?_, hhead, hlast⟩
  · apply limpiar_linea_normal
    refine ⟨?_, hhead, hlast⟩
    intro c hc
    obtain ⟨c0, h0, rfl⟩ := hmem c hc
    exact ⟨(toupper_props c0).1 h0, (toupper_props c0).2.2.1⟩
  · intro c hc
    obtain ⟨c0, h0, rfl⟩ := hmem c hc
    exact ⟨(toupper_props c0).1 h0, (toupper_props c0).2.2.2⟩

/-- A byte changed by one iteration of the resolver lies in the range of the
reference, whose label is in the symbol table and whose range fits the
buffer. -/
theorem resolver_plano_cambio (tabla : List (Str × Int)) (codigo : List Nat)
    (p : Str × ReferenciaPendiente) (i : Nat) (hp : 0 ≤ p.2.posicion)
    (h : (resolver_plano tabla codigo p)[i]? ≠ codigo[i]?) :
    buscar tabla p.1 ≠ none ∧ p.2.posicion + 4 ≤ (codigo.length : Int) ∧
      p.2.posicion ≤ (i : Int) ∧ (i : Int) ≤ p.2.posicion + 3 := by
  unfold resolver_plano at h
  split at h
  · exact absurd rfl h
  · next d hd =>
    unfold resolver_ref at h
    simp only at h
    obtain ⟨n, hn⟩ := Int.eq_ofNat_of_zero_le hp
    rw [hn] at h ⊢
    refine ⟨by rw [hd]; simp, ?_, ?_, ?_⟩
    · by_contra hcon
      have hlen : ¬ (n + 3 < codigo.length) := by omega
      rw [parchear_nat, if_neg hlen] at h
      exact h rfl
    · by_contra hcon
      exact h (parchear_fuera _ _ _ i (by omega))
    · by_contra hcon
      exact h (parchear_fuera _ _ _ i (by omega))

theorem foldl_resolver_plano_cambio (tabla : List (Str × Int))
    (f : List (Str × ReferenciaPendiente)) (codigo : List Nat) (i : Nat)
    (hf : ∀ p ∈ f, 0 ≤ p.2.posicion)
    (h : (f.foldl (resolver_plano tabla) codigo)[i]? ≠ codigo[i]?) :
    ∃ p ∈ f, buscar tabla p.1 ≠ none ∧ p.2.posicion + 4 ≤ (codigo.length : Int) ∧
      p.2.posicion ≤ (i : Int) ∧ (i : Int) ≤ p.2.posicion + 3 := by
  induction f generalizing codigo with
  | nil => exact absurd rfl h
  | cons p t ih =>
    rw [List.foldl_cons] at h
    by_cases h1 : (resolver_plano tabla codigo p)[i]? = codigo[i]?
    · rw [← h1] at h
      obtain ⟨q, hq, hr⟩ := ih _ (fun x hx => hf x (List.mem_cons_of_mem _ hx)) h
      rw [resolver_plano_length] at hr
      exact ⟨q, List.mem_cons_of_mem _ hq, hr⟩
    · exact ⟨p, List.mem_cons_self _ _,
        resolver_plano_cambio tabla codigo p i (hf p (List.mem_cons_self _ _)) h1⟩

/-- C14. For every state whose pending references have non-negative positions
(a negative position is undefined behaviour in the source) and every order
`orden` in which the resolver visits the entries of the pending table: the
resolver leaves the length of the code buffer, the symbol table, the pending
table and the position counter unchanged; every buffer index whose byte
changed lies in `posicion .. posicion + 3` of a pending reference whose label is
in the symbol table and with `posicion + 4` at most the buffer length; and when
every pending reference has its label absent from the symbol table or
`posicion + 4` beyond the buffer length, the buffer is unchanged. -/
theorem resolver_marco (s : Ensamblador) (orden : List (Str × List ReferenciaPendiente))
    (horden : orden.Perm s.referencias_pendientes)
    (hpos : ∀ p ∈ refs_planas s.referencias_pendientes, 0 ≤ p.2.posicion) :
    (resolver_en_orden s orden).codigo_hex.length = s.codigo_hex.length ∧
    (resolver_en_orden s orden).tabla_simbolos = s.tabla_simbolos ∧
    (resolver_en_orden s orden).referencias_pendientes = s.referencias_pendientes ∧
    (resolver_en_orden s orden).contador_posicion = s.contador_posicion ∧
    (∀ i : Nat, (resolver_en_orden s orden).codigo_hex[i]? ≠ s.codigo_hex[i]? →
      ∃ p ∈ refs_planas s.referencias_pendientes,
        buscar s.tabla_simbolos p.1 ≠ none ∧
        p.2.posicion + 4 ≤ (s.codigo_hex.length : Int) ∧
        p.2.posicion ≤ (i : Int) ∧ (i : Int) ≤ p.2.posicion + 3) ∧
    ((∀ p ∈ refs_planas s.referencias_pendientes,
        buscar s.tabla_simbolos p.1 = none ∨ (s.codigo_hex.length : Int) < p.2.posicion + 4) →
      (resolver_en_orden s orden).codigo_hex = s.codigo_hex) := by
  have hperm := refs_planas_perm _ _ horden
  have hcambio : ∀ i : Nat, (resolver_en_orden s orden).codigo_hex[i]? ≠ s.codigo_hex[i]? →
      ∃ p ∈ refs_planas s.referencias_pendientes,
        buscar s.tabla_simbolos p.1 ≠ none ∧
        p.2.posicion + 4 ≤ (s.codigo_hex.length : Int) ∧
        p.2.posicion ≤ (i : Int) ∧ (i : Int) ≤ p.2.posicion + 3 := by
    intro i hi
    rw [resolver_por_planas] at hi
    obtain ⟨p, hp, hr⟩ := foldl_resolver_plano_cambio s.tabla_simbolos _ _ i
      (fun x hx => hpos x (hperm.subset hx)) hi
    exact ⟨p, hperm.subset hp, hr⟩
  refine ⟨?_, rfl, rfl, rfl, hcambio, ?_⟩
  · rw [resolver_por_planas, foldl_resolver_plano_length]
  · intro hnone
    apply List.ext_getElem?
    intro i
    by_contra hi
    obtain ⟨p, hp, h1, h2, _⟩ := hcambio i hi
    rcases hnone p hp with h | h
    · exact h1 h
    · omega

/-- Witness of C14: after `MOV [X], EAX`, `INT 80H`, `X:` the resolver keeps the
seven bytes of the buffer in number and changes nothing outside indices 2 to 5;
after `JMP A` alone, where `A` is never defined, it changes nothing. -/
theorem resolver_marco_witness :
    (resolver_referencias_pendientes
      (ensamblar ["MOV [X], EAX".toList, "INT 80H".toList, "X:".toList])).codigo_hex.length =
      7 ∧
    (resolver_referencias_pendientes (ensamblar ["JMP A".toList])).codigo_hex =
      (ensamblar ["JMP A".toList]).codigo_hex :=
  ⟨(resolver_marco (ensamblar ["MOV [X], EAX".toList, "INT 80H".toList, "X:".toList]) _
      (List.Perm.refl _) (by decide)).1,
   (resolver_marco (ensamblar ["JMP A".toList]) _ (List.Perm.refl _) (by decide)).2.2.2.2.2
      (by decide)⟩

theorem agregar_byte_length (s : Ensamblador) (b : Nat) :
    (agregar_byte s b).codigo_hex.length = s.codigo_hex.length + 1 := by
  simp [agregar_byte]

theorem agregar_dword_length (s : Ensamblador) (v : Nat) :
    (agregar_dword s v).codigo_hex.length = s.codigo_hex.length + 4 := by
  simp [agregar_dword, agregar_byte]

theorem parejo_refl (s : Ensamblador) : Parejo s s := by
  unfold Parejo
  omega

theorem parejo_agregar_byte (s t : Ensamblador) (b : Nat) (h : Parejo s t) :
    Parejo s (agregar_byte t b) := by
  unfold Parejo at h ⊢
  rw [agregar_byte_length]
  show t.contador_posicion + 1 - s.contador_posicion = _
  push_cast
  omega

theorem parejo_agregar_dword (s t : Ensamblador) (v : Nat) (h : Parejo s t) :
    Parejo s (agregar_dword t v) := by
  unfold Parejo at h ⊢
  rw [agregar_dword_length, (agregar_dword_resto t v).1]
  push_cast
  omega

theorem parejo_mem_simple (s t : Ensamblador) (op : Str) (rc : Nat) (ed : Bool) (ext : Nat)
    (r : Nat × Ensamblador) (h : Parejo s t) (hr : procesar_mem_simple t op rc ed ext = some r) :
    Parejo s r.2 := by
  unfold procesar_mem_simple at hr
  split at hr
  · injection hr with hr
    subst hr
    exact parejo_agregar_dword s _ 0 h
  · exact absurd hr (by simp)

theorem parejo_mov (s : Ensamblador) (ops : Str) : Parejo s (procesar_mov s ops) := by
  have q0 := parejo_refl s
  unfold procesar_mov
  simp only
  split
  · exact parejo_agregar_byte _ _ _ (parejo_agregar_byte _ _ _ q0)
  · split
    · split
      · exact parejo_agregar_dword _ _ _ (parejo_agregar_byte _ _ _ q0)
      · exact q0
    · split
      · next fin hfin =>
        split at hfin
        · split at hfin
          · next r hr =>
            simp only at hfin
            injection hfin with hfin
            subst hfin
            exact parejo_mem_simple s _ _ _ _ _ r (parejo_agregar_byte _ _ _ q0) hr
          · simp at hfin
        · simp at hfin
      · next hnone =>
        have hq3 : Parejo s
            (match obtener_reg32 (separar_operandos ops).2,
                entre_corchetes (separar_operandos ops).1 with
              | some src_code, true =>
                match procesar_mem_simple (agregar_byte s 0x89) (separar_operandos ops).1
                    src_code true 0 with
                | some r => (some r.2, agregar_byte s 0x89)
                | none => (none, agregar_byte s 0x89)
              | _, _ => ((none : Option Ensamblador), s)).2 := by
          split
          · split
            · exact parejo_agregar_byte _ _ _ q0
            · exact parejo_agregar_byte _ _ _ q0
          · exact q0
        split
        · split
          · next r hr => exact parejo_mem_simple s _ _ _ _ _ r (parejo_agregar_byte _ _ _ hq3) hr
          · exact parejo_agregar_byte _ _ _ hq3
        · exact hq3

theorem parejo_sub (s : Ensamblador) (ops : Str) : Parejo s (procesar_sub s ops) := by
  have q0 := parejo_refl s
  unfold procesar_sub
  simp only
  split
  · exact parejo_agregar_byte _ _ _ (parejo_agregar_byte _ _ _ q0)
  · split
    · split
      · exact parejo_agregar_dword _ _ _ (parejo_agregar_byte _ _ _ q0)
      · exact q0
    · split
      · split
        · split
          · split
            · next r hr =>
              exact parejo_agregar_byte _ _ _
                (parejo_mem_simple s _ _ _ _ _ r (parejo_agregar_byte _ _ _ q0) hr)
            · exact parejo_agregar_byte _ _ _ q0
          · exact q0
        · exact q0
      · exact q0

/-- Outside the jump branches the dispatch advances counter and buffer alike. -/
theorem parejo_despachar (s : Ensamblador) (m resto : Str) (h1 : m ≠ "JMP".toList)
    (h2 : m ∉ mnemonicos_condicionales) : Parejo s (despachar s m resto) := by
  unfold despachar
  rw [if_neg h1, if_neg h2]
  split
  · exact parejo_mov s resto
  · split
    · exact parejo_refl s
    · split
      · exact parejo_sub s resto
      · split
        · simp only
          split
          · exact parejo_agregar_byte _ _ _ (parejo_agregar_byte _ _ _ (parejo_refl s))
          · exact parejo_refl s
        · exact parejo_refl s

/-- Function `procesar_jmp`: counter plus 9, buffer plus 5, on either branch. -/
theorem procesar_jmp_avance (s : Ensamblador) (ops : Str) :
    (procesar_jmp s ops).contador_posicion = s.contador_posicion + 9 ∧
    (procesar_jmp s ops).codigo_hex.length = s.codigo_hex.length + 5 := by
  unfold procesar_jmp
  simp only
  split
  · rw [(agregar_dword_resto _ _).1, agregar_dword_length]
    refine ⟨?_, ?_⟩
    · show s.contador_posicion + 1 + 4 + 4 = _
      omega
    · show (agregar_byte s 0xE9).codigo_hex.length + 4 = _
      rw [agregar_byte_length]
  · rw [(agregar_dword_resto _ _).1, agregar_dword_length]
    refine ⟨?_, ?_⟩
    · show s.contador_posicion + 1 + 4 + 4 = _
      omega
    · show (agregar_byte s 0xE9).codigo_hex.length + 4 = _
      rw [agregar_byte_length]

theorem opcode_condicional_definido : ∀ m ∈ mnemonicos_condicionales,
    (opcode_condicional m).isSome = true := by
  decide

/-- Function `procesar_condicional` on one of the twelve mnemonics: counter plus
10, buffer plus 6, on either branch. -/
theorem procesar_condicional_avance (s : Ensamblador) (m ops : Str)
    (hm : m ∈ mnemonicos_condicionales) :
    (procesar_condicional s m ops).contador_posicion = s.contador_posicion + 10 ∧
    (procesar_condicional s m ops).codigo_hex.length = s.codigo_hex.length + 6 := by
  obtain ⟨op, hop⟩ := Option.isSome_iff_exists.1 (opcode_condicional_definido m hm)
  unfold procesar_condicional
  simp only [hop]
  split
  · rw [(agregar_dword_resto _ _).1, agregar_dword_length]
    refine ⟨?_, ?_⟩
    · show s.contador_posicion + 1 + 1 + 4 + 4 = _
      omega
    · show (agregar_byte (agregar_byte s 0x0F) op).codigo_hex.length + 4 = _
      rw [agregar_byte_length, agregar_byte_length]
  · rw [(agregar_dword_resto _ _).1, agregar_dword_length]
    refine ⟨?_, ?_⟩
    · show s.contador_posicion + 1 + 1 + 4 + 4 = _
      omega
    · show (agregar_byte (agregar_byte s 0x0F) op).codigo_hex.length + 4 = _
      rw [agregar_byte_length, agregar_byte_length]

/-- An instruction line goes to the dispatch with its mnemonic. -/
theorem procesar_linea_es_instruccion (s : Ensamblador) (linea : Str)
    (h : es_instruccion linea = true) :
    procesar_linea s linea =
      despachar s (mnemonico linea)
        (limpiar_linea (getline (leer_palabra (limpiar_linea linea)).2 salto_linea).1) := by
  unfold es_instruccion at h
  simp only [Bool.and_eq_true, Bool.not_eq_true', List.isEmpty_eq_false] at h
  unfold procesar_linea
  simp only
  rw [if_neg h.1, if_neg (by rw [h.2]; decide)]
  rfl

/-- A line that is no instruction leaves counter and buffer as they were. -/
theorem procesar_linea_no_instruccion (s : Ensamblador) (linea : Str)
    (h : es_instruccion linea = false) :
    (procesar_linea s linea).contador_posicion = s.contador_posicion ∧
    (procesar_linea s linea).codigo_hex = s.codigo_hex := by
  unfold procesar_linea
  simp only
  split
  · exact ⟨rfl, rfl⟩
  · next hne =>
    split
    · exact ⟨rfl, rfl⟩
    · next hnet =>
      exfalso
      unfold es_instruccion at h
      have h1 : (limpiar_linea linea).isEmpty = false := by simpa using hne
      have h2 : es_etiqueta (limpiar_linea linea) = false := by simpa using hnet
      rw [h1, h2] at h
      exact absurd h (by decide)

theorem parejo_procesar_linea (s : Ensamblador) (linea : Str) (h : es_salto linea = false) :
    Parejo s (procesar_linea s linea) := by
  by_cases hi : es_instruccion linea = true
  · rw [procesar_linea_es_instruccion s linea hi]
    unfold es_salto es_jmp es_condicional at h
    rw [hi] at h
    simp only [Bool.true_and, Bool.or_eq_false_iff, decide_eq_false_iff_not] at h
    exact parejo_despachar s _ _ h.1 h.2
  · have hn := procesar_linea_no_instruccion s linea (by simpa using hi)
    unfold Parejo
    rw [hn.1, hn.2]
    omega

theorem procesar_linea_jmp (s : Ensamblador) (linea : Str) (h : es_jmp linea = true) :
    (procesar_linea s linea).contador_posicion = s.contador_posicion + 9 ∧
    (procesar_linea s linea).codigo_hex.length = s.codigo_hex.length + 5 := by
  unfold es_jmp at h
  simp only [Bool.and_eq_true, decide_eq_true_eq] at h
  rw [procesar_linea_es_instruccion s linea h.1, h.2]
  unfold despachar
  rw [if_neg (by decide), if_neg (by decide), if_neg (by decide), if_pos rfl]
  exact procesar_jmp_avance s _

theorem mnemonicos_condicionales_distintos : ∀ m ∈ mnemonicos_condicionales,
    m ≠ "MOV".toList ∧ m ≠ "ADD".toList ∧ m ≠ "SUB".toList ∧ m ≠ "JMP".toList := by
  decide

theorem procesar_linea_condicional (s : Ensamblador) (linea : Str)
    (h : es_condicional linea = true) :
    (procesar_linea s linea).contador_posicion = s.contador_posicion + 10 ∧
    (procesar_linea s linea).codigo_hex.length = s.codigo_hex.length + 6 := by
  unfold es_condicional at h
  simp only [Bool.and_eq_true, decide_eq_true_eq] at h
  have hd := mnemonicos_condicionales_distintos _ h.2
  rw [procesar_linea_es_instruccion s linea h.1]
  unfold despachar
  rw [if_neg hd.1, if_neg hd.2.1, if_neg hd.2.2.1, if_neg hd.2.2.2, if_pos h.2]
  exact procesar_condicional_avance s _ _ h.2

/-- Drift of the counter over a run of lines from any state. -/
theorem deriva_procesar_lineas (lineas : List Str) (s : Ensamblador) :
    (procesar_lineas s lineas).contador_posicion -
        ((procesar_lineas s lineas).codigo_hex.length : Int) =
      s.contador_posicion - (s.codigo_hex.length : Int) +
        4 * (lineas.countP es_salto : Int) := by
  induction lineas generalizing s with
  | nil => simp [procesar_lineas]
  | cons a t ih =>
    have e : procesar_lineas s (a :: t) = procesar_lineas (procesar_linea s a) t := rfl
    rw [e, ih (procesar_linea s a), List.countP_cons]
    by_cases hs : es_salto a = true
    · rw [if_pos hs]
      have hstep : (procesar_linea s a).contador_posicion -
          ((procesar_linea s a).codigo_hex.length : Int) =
          s.contador_posicion - (s.codigo_hex.length : Int) + 4 := by
        unfold es_salto at hs
        rcases Bool.or_eq_true_iff.1 hs with hj | hc
        · have h := procesar_linea_jmp s a hj
          rw [h.1, h.2]
          push_cast
          omega
        · have h := procesar_linea_condicional s a hc
          rw [h.1, h.2]
          push_cast
          omega
      rw [hstep]
      push_cast
      omega
    · have hs2 : es_salto a = false := by simpa using hs
      have hp := parejo_procesar_linea s a hs2
      unfold Parejo at hp
      rw [if_neg hs]
      push_cast
      omega

/-- C20. For every sequence of source lines processed from the initial state,
`contador_posicion - codigo_hex.size()` is exactly 4 times the number of jump
lines (`JMP` or one of the twelve conditional jumps) among them. In any state a
`JMP` line advances the counter by 9 and the buffer by 5, a conditional-jump
line advances the counter by 10 and the buffer by 6, whether the label is known
or not, and every other line advances both by the same amount. -/
theorem deriva_de_saltos (lineas : List Str) (s : Ensamblador) (linea : Str) :
    (ensamblar lineas).contador_posicion - ((ensamblar lineas).codigo_hex.length : Int) =
      4 * (lineas.countP es_salto : Int) ∧
    (es_jmp linea = true →
      (procesar_linea s linea).contador_posicion = s.contador_posicion + 9 ∧
      (procesar_linea s linea).codigo_hex.length = s.codigo_hex.length + 5) ∧
    (es_condicional linea = true →
      (procesar_linea s linea).contador_posicion = s.contador_posicion + 10 ∧
      (procesar_linea s linea).codigo_hex.length = s.codigo_hex.length + 6) ∧
    (es_salto linea = false →
      (procesar_linea s linea).contador_posicion - s.contador_posicion =
        ((procesar_linea s linea).codigo_hex.length : Int) - (s.codigo_hex.length : Int)) := by
  refine ⟨?_, procesar_linea_jmp s linea, procesar_linea_condicional s linea,
    parejo_procesar_linea s linea⟩
  have h := deriva_procesar_lineas lineas inicial
  have h0 : inicial.contador_posicion - (inicial.codigo_hex.length : Int) = 0 := by decide
  rw [h0, zero_add] at h
  exact h

/-- Witness of C20: after `JMP A`, `MOV EAX, 1H`, `JE A` the counter is 8 ahead
of the buffer; `JMP A` from the initial state gives counter 9 and 5 bytes, `JE A`
gives counter 10 and 6 bytes, and `MOV EAX, 1H` advances both by 5. -/
theorem deriva_de_saltos_witness :
    (ensamblar ["JMP A".toList, "MOV EAX, 1H".toList, "JE A".toList]).contador_posicion -
      ((ensamblar ["JMP A".toList, "MOV EAX, 1H".toList, "JE A".toList]).codigo_hex.length :
        Int) = 8 ∧
    ((procesar_linea inicial "JMP A".toList).contador_posicion = 9 ∧
      (procesar_linea inicial "JMP A".toList).codigo_hex.length = 5) ∧
    ((procesar_linea inicial "JE A".toList).contador_posicion = 10 ∧
      (procesar_linea inicial "JE A".toList).codigo_hex.length = 6) ∧
    (procesar_linea inicial "MOV EAX, 1H".toList).contador_posicion - 0 =
      ((procesar_linea inicial "MOV EAX, 1H".toList).codigo_hex.length : Int) - 0 :=
  ⟨(deriva_de_saltos ["JMP A".toList, "MOV EAX, 1H".toList, "JE A".toList] inicial
      [] ).1.trans (by decide),
   (deriva_de_saltos [] inicial "JMP A".toList).2.1 (by decide),
   (deriva_de_saltos [] inicial "JE A".toList).2.2.1 (by decide),
   (deriva_de_saltos [] inicial "MOV EAX, 1H".toList).2.2.2 (by decide)⟩

theorem buscar_asignar_mismo (t : List (Str × Int)) (l : Str) (v : Int) :
    buscar (asignar t l v) l = some v := by
  induction t with
  | nil => simp [asignar, buscar]
  | cons p t ih =>
    obtain ⟨k, w⟩ := p
    unfold asignar
    split
    · next h => simp [buscar, h]
    · next h => simp [buscar, h, ih]

theorem buscar_asignar_otro (t : List (Str × Int)) (l k : Str) (v : Int) (h : k ≠ l) :
    buscar (asignar t l v) k = buscar t k := by
  induction t with
  | nil => simp [asignar, buscar, h]
  | cons p t ih =>
    obtain ⟨k0, w⟩ := p
    unfold asignar
    split
    · next h0 =>
      subst h0
      simp [buscar, h]
    · next h0 =>
      by_cases hk : k = k0
      · simp [buscar, hk]
      · simp [buscar, hk, ih]

/-- A label line `l:` whose name is a token is a label definition of `l`. -/
theorem procesar_linea_etiqueta (s : Ensamblador) (l : Str) (hl : ∀ c ∈ l, limpio c) :
    procesar_linea s (l ++ [':']) = procesar_etiqueta s l := by
  have hn : normal (l ++ [':']) := by
    apply normal_de_limpio
    intro c hc
    rcases List.mem_append.1 hc with h | h
    · exact hl c h
    · rw [List.mem_singleton.1 h]; decide
  have hne : l ++ [':'] ≠ [] := by simp
  have het : es_etiqueta (l ++ [':']) = true := by
    unfold es_etiqueta
    rw [List.getLast?_concat]
    rfl
  unfold procesar_linea
  simp only [limpiar_linea_normal _ hn, if_neg hne, het, if_true]
  congr 1
  simp

/-- C21. For every state `s` and every label name `l` (a token), processing the
label line `l:` is `procesar_etiqueta s l`: afterwards the symbol table gives
`l` the position counter of `s`, whatever address `l` had before, every other
name has the entry it had in `s`, and the code buffer, the position counter and
the pending table are those of `s`. -/
theorem linea_de_etiqueta (s : Ensamblador) (l : Str) (hl : ∀ c ∈ l, limpio c) :
    buscar (procesar_linea s (l ++ ":".toList)).tabla_simbolos l = some s.contador_posicion ∧
    (∀ k, k ≠ l →
      buscar (procesar_linea s (l ++ ":".toList)).tabla_simbolos k = buscar s.tabla_simbolos k) ∧
    (procesar_linea s (l ++ ":".toList)).codigo_hex = s.codigo_hex ∧
    (procesar_linea s (l ++ ":".toList)).contador_posicion = s.contador_posicion ∧
    (procesar_linea s (l ++ ":".toList)).referencias_pendientes = s.referencias_pendientes := by
  have e : l ++ ":".toList = l ++ [':'] := rfl
  rw [e, procesar_linea_etiqueta s l hl]
  exact ⟨buscar_asignar_mismo _ _ _, fun k hk => buscar_asignar_otro _ _ _ _ hk, rfl, rfl, rfl⟩

/-- Witness of C21: in the state after `A:`, `MOV EAX, 1H`, `B:` the line `A:`
moves `A` from 0 to 5, keeps `B` at 5, and keeps the five bytes and the
counter. -/
theorem linea_de_etiqueta_witness :
    buscar (ensamblar ["A:".toList, "MOV EAX, 1H".toList, "B:".toList]).tabla_simbolos
      "A".toList = some 0 ∧
    buscar (procesar_linea
      (ensamblar ["A:".toList, "MOV EAX, 1H".toList, "B:".toList]) "A:".toList).tabla_simbolos
      "A".toList = some 5 ∧
    buscar (procesar_linea
      (ensamblar ["A:".toList, "MOV EAX, 1H".toList, "B:".toList]) "A:".toList).tabla_simbolos
      "B".toList = some 5 ∧
    (procesar_linea
      (ensamblar ["A:".toList, "MOV EAX, 1H".toList, "B:".toList]) "A:".toList).codigo_hex =
      [0xB8, 1, 0, 0, 0] :=
  have h := linea_de_etiqueta (ensamblar ["A:".toList, "MOV EAX, 1H".toList, "B:".toList])
    "A".toList (by decide)
  ⟨by decide, h.1, (h.2.1 "B".toList (by decide)).trans (by decide), h.2.2.1⟩

/-- Inside its range, and when the range fits, what `parchear` writes depends
only on the position and the value, not on the buffer it is applied to. -/
theorem parchear_dentro (c1 c2 : List Nat) (n v j : Nat) (hlen : c1.length = c2.length)
    (hn : n + 3 < c1.length) (hj1 : n ≤ j) (hj2 : j < n + 4) :
    (parchear c1 (n : Int) v)[j]? = (parchear c2 (n : Int) v)[j]? := by
  have hn2 : n + 3 < c2.length := by omega
  rw [parchear_nat, parchear_nat, if_pos hn, if_pos hn2]
  have hcases : j = n ∨ j = n + 1 ∨ j = n + 2 ∨ j = n + 3 := by omega
  rcases hcases with rfl | rfl | rfl | rfl
  · rw [List.getElem?_set_ne (by omega), List.getElem?_set_ne (by omega),
      List.getElem?_set_ne (by omega), List.getElem?_set_self (by omega),
      List.getElem?_set_ne (by omega), List.getElem?_set_ne (by omega),
      List.getElem?_set_ne (by omega), List.getElem?_set_self (by omega)]
  · rw [List.getElem?_set_ne (by omega), List.getElem?_set_ne (by omega),
      List.getElem?_set_self (by simp; omega),
      List.getElem?_set_ne (by omega), List.getElem?_set_ne (by omega),
      List.getElem?_set_self (by simp; omega)]
  · rw [List.getElem?_set_ne (by omega), List.getElem?_set_self (by simp; omega),
      List.getElem?_set_ne (by omega), List.getElem?_set_self (by simp; omega)]
  · rw [List.getElem?_set_self (by simp; omega), List.getElem?_set_self (by simp; omega)]

/-- Two patches on disjoint ranges commute. -/
theorem parchear_conmuta (codigo : List Nat) (n v m w : Nat) (h : n + 4 ≤ m ∨ m + 4 ≤ n) :
    parchear (parchear codigo (n : Int) v) (m : Int) w =
      parchear (parchear codigo (m : Int) w) (n : Int) v := by
  by_cases hn : n + 3 < codigo.length
  · by_cases hm : m + 3 < codigo.length
    · apply List.ext_getElem?
      intro j
      by_cases hjn : n ≤ j ∧ j < n + 4
      · rw [parchear_fuera _ m w j (by omega)]
        exact parchear_dentro _ _ n v j (parchear_length _ _ _).symm hn hjn.1 hjn.2
      · by_cases hjm : m ≤ j ∧ j < m + 4
        · rw [parchear_fuera (parchear codigo (m : Int) w) n v j (by omega)]
          exact (parchear_dentro _ _ m w j (parchear_length _ _ _).symm hm hjm.1 hjm.2).symm
        · rw [parchear_fuera _ m w j (by omega), parchear_fuera _ n v j (by omega),
            parchear_fuera _ n v j (by omega), parchear_fuera _ m w j (by omega)]
    · have e1 : parchear codigo (m : Int) w = codigo := by
        rw [parchear_nat, if_neg hm]
      have e2 : parchear (parchear codigo (n : Int) v) (m : Int) w =
          parchear codigo (n : Int) v := by
        rw [parchear_nat (parchear codigo (n : Int) v), if_neg (by rw [parchear_length]; exact hm)]
      rw [e1, e2]
  · have e1 : parchear codigo (n : Int) v = codigo := by
      rw [parchear_nat, if_neg hn]
    have e2 : parchear (parchear codigo (m : Int) w) (n : Int) v =
        parchear codigo (m : Int) w := by
      rw [parchear_nat (parchear codigo (m : Int) w), if_neg (by rw [parchear_length]; exact hn)]
    rw [e1, e2]

/-- Two iterations of the resolver on references with disjoint ranges
commute. -/
theorem resolver_plano_conmuta (tabla : List (Str × Int)) (codigo : List Nat)
    (p q : Str × ReferenciaPendiente) (hp : 0 ≤ p.2.posicion) (hq : 0 ≤ q.2.posicion)
    (h : disjuntas p q) :
    resolver_plano tabla (resolver_plano tabla codigo p) q =
      resolver_plano tabla (resolver_plano tabla codigo q) p := by
  obtain ⟨n, hn⟩ := Int.eq_ofNat_of_zero_le hp
  obtain ⟨m, hm⟩ := Int.eq_ofNat_of_zero_le hq
  unfold disjuntas at h
  rw [hn, hm] at h
  unfold resolver_plano
  cases hbp : buscar tabla p.1 with
  | none =>
    cases hbq : buscar tabla q.1 with
    | none => rfl
    | some dq => rfl
  | some dp =>
    cases hbq : buscar tabla q.1 with
    | none => rfl
    | some dq =>
      simp only
      unfold resolver_ref
      simp only
      rw [hn, hm]
      exact parchear_conmuta codigo n _ m _ (by omega)

/-- C22. For every program `lineas` processed from the initial state, the patch
ranges `[posicion, posicion + 3]` of the pending references registered by phase
one are pairwise disjoint, and for any two orders `orden1`, `orden2` in which
the resolver may visit the entries of the pending table the resulting state,
code buffer included, is the same. -/
theorem resolver_sin_orden (lineas : List Str)
    (orden1 orden2 : List (Str × List ReferenciaPendiente))
    (h1 : orden1.Perm (ensamblar lineas).referencias_pendientes)
    (h2 : orden2.Perm (ensamblar lineas).referencias_pendientes) :
    (refs_planas (ensamblar lineas).referencias_pendientes).Pairwise disjuntas ∧
    (resolver_en_orden (ensamblar lineas) orden1).codigo_hex =
      (resolver_en_orden (ensamblar lineas) orden2).codigo_hex ∧
    resolver_en_orden (ensamblar lineas) orden1 = resolver_en_orden (ensamblar lineas) orden2 := by
  obtain ⟨_, _, hpw, hrf⟩ := inv_ensamblar lineas
  have hp1 := refs_planas_perm _ _ h1
  have hp12 := refs_planas_perm _ _ (h1.trans h2.symm)
  have hpw1 : (refs_planas orden1).Pairwise disjuntas :=
    (List.Perm.pairwise_iff (fun {x y} hxy => disjuntas_symm x y hxy) hp1).2 hpw
  have hsym : Symmetric disjuntas := fun x y hxy => disjuntas_symm x y hxy
  have hcod : (resolver_en_orden (ensamblar lineas) orden1).codigo_hex =
      (resolver_en_orden (ensamblar lineas) orden2).codigo_hex := by
    rw [resolver_por_planas, resolver_por_planas]
    apply List.Perm.foldl_eq' hp12
    intro x hx y hy z
    by_cases hxy : x = y
    · rw [hxy]
    · exact resolver_plano_conmuta _ z x y (hrf x (hp1.subset hx)).1 (hrf y (hp1.subset hy)).1
        (hpw1.forall hsym hx hy hxy)
  refine ⟨hpw, hcod, ?_⟩
  have hcod2 : orden1.foldl (resolver_etiqueta (ensamblar lineas).tabla_simbolos)
      (ensamblar lineas).codigo_hex =
      orden2.foldl (resolver_etiqueta (ensamblar lineas).tabla_simbolos)
        (ensamblar lineas).codigo_hex := hcod
  unfold resolver_en_orden
  rw [hcod2]

/-- Witness of C22: for `MOV [A], EAX`, `MOV [B], EAX`, `INT 80H`, `A:`, `B:` the
resolver gives the same buffer when it visits `B` before `A`. -/
theorem resolver_sin_orden_witness :
    (resolver_en_orden
      (ensamblar ["MOV [A], EAX".toList, "MOV [B], EAX".toList, "INT 80H".toList, "A:".toList,
        "B:".toList])
      (ensamblar ["MOV [A], EAX".toList, "MOV [B], EAX".toList, "INT 80H".toList, "A:".toList,
        "B:".toList]).referencias_pendientes.reverse).codigo_hex =
    (resolver_referencias_pendientes
      (ensamblar ["MOV [A], EAX".toList, "MOV [B], EAX".toList, "INT 80H".toList, "A:".toList,
        "B:".toList])).codigo_hex :=
  (resolver_sin_orden
    ["MOV [A], EAX".toList, "MOV [B], EAX".toList, "INT 80H".toList, "A:".toList, "B:".toList]
    _ _ (List.reverse_perm _) (List.Perm.refl _)).2.1

end EnsambladorIA32
